import Mathlib

/-!
# Spill hash table

A shallow embedding of `PersistentHashTable` (hash_table.h / hash_table.cpp): a key-value
store for `int` keys and values that shards its entries over JSON bucket files inside a table
directory and appends every write to a log file.

* C++ `int` is `Int`; 32-bit range facts are stated with `isInt32`.
* Text (file contents, rendered numbers) is `List Char`; path components are `String`.
* The filesystem is a function from paths to nodes, threaded through every operation.
* The operations are embedded as sequential functions; the mutexes of the source appear
  only in the step model of interleaved executions at the end of the definitions.
-/

namespace SpillHashTable

/-! ## Machine integers and their renderings -/

/-- Smallest value of a C++ `int`. -/
def INT_MIN : Int := -2147483648

/-- Largest value of a C++ `int`. -/
def INT_MAX : Int := 2147483647

/-- The value fits a 32-bit signed `int`. -/
def isInt32 (k : Int) : Prop := INT_MIN ≤ k ∧ k ≤ INT_MAX

instance (k : Int) : Decidable (isInt32 k) := by
  unfold isInt32
  exact inferInstance

/-- Conversion of a stored JSON integer to `int` (two's complement wrap-around). -/
def toInt32 (v : Int) : Int := (v + 2147483648) % 4294967296 - 2147483648

/-- File contents and rendered numbers. -/
abbrev Text := List Char

/-- The decimal rendering of `std::to_string(int)` and of `stream << int`. -/
def to_string (k : Int) : Text :=
  match k with
  | Int.ofNat n => Nat.toDigits 10 n
  | Int.negSucc n => '-' :: Nat.toDigits 10 (n + 1)

/-- The value `stream << std::hex << r` prints for an `int` r: hexadecimal output converts
the operand to `unsigned int` first, so a negative r is printed as `2^32 + r`. -/
def hexOfInt (r : Int) : Text := Nat.toDigits 16 (Int.toNat (r % 4294967296))

/-- The shard id: `ss << std::hex << (key % (1 << (bucket_mag * 4)))`. The C++ remainder
truncates toward zero (`Int.tmod`); `1 << (bucket_mag * 4)` is `2 ^ (bucket_mag * 4)` for
`bucket_mag ≤ 7` (larger magnitudes overflow the shift and are outside the model). -/
def hash (bucket_mag : Nat) (key : Int) : Text :=
  hexOfInt (Int.tmod key (2 ^ (bucket_mag * 4)))

/-! ## Formatted stream extraction -/

/-- Whitespace of the classic locale, skipped by `operator>>`. -/
def isSpace (c : Char) : Bool := c.toNat = 32 || (9 ≤ c.toNat && c.toNat ≤ 13)

/-- Skip leading whitespace. -/
def skipWs : Text → Text
  | [] => []
  | c :: cs => if isSpace c then skipWs cs else c :: cs

/-- Consume the longest run of decimal digits, accumulating their value. -/
def readDigits : Nat → Text → Nat × Text
  | acc, [] => (acc, [])
  | acc, c :: cs =>
    if c.isDigit then readDigits (acc * 10 + (c.toNat - 48)) cs else (acc, c :: cs)

/-- An optional sign followed by at least one digit; the value and the unread rest. -/
def readSigned (s : Text) : Option (Int × Text) :=
  match s with
  | [] => none
  | c :: cs =>
    if c = '-' then
      match cs with
      | [] => none
      | d :: _ => if d.isDigit then some (-((readDigits 0 cs).1 : Int), (readDigits 0 cs).2)
                  else none
    else if c = '+' then
      match cs with
      | [] => none
      | d :: _ => if d.isDigit then some (((readDigits 0 cs).1 : Int), (readDigits 0 cs).2)
                  else none
    else if c.isDigit then some (((readDigits 0 (c :: cs)).1 : Int), (readDigits 0 (c :: cs)).2)
    else none

/-- The extraction `iss >> n` for an `int` n: skip whitespace, read a signed decimal number,
fail when there is none or when it does not fit an `int`. -/
def extractInt (s : Text) : Option (Int × Text) :=
  match readSigned (skipWs s) with
  | none => none
  | some (v, rest) => if isInt32 v then some (v, rest) else none

/-- The extraction `iss >> c` for a `char` c: skip whitespace, read one character. -/
def extractChar (s : Text) : Option (Char × Text) :=
  match skipWs s with
  | [] => none
  | c :: cs => some (c, cs)

/-- One log line as the recovery loop reads it: `iss >> key >> delim >> value` succeeds and
`delim` is a comma. Whatever follows the value is left unread. -/
def parseLine (line : Text) : Option (Int × Int) :=
  match extractInt line with
  | none => none
  | some (key, r1) =>
    match extractChar r1 with
    | none => none
    | some (delim, r2) =>
      match extractInt r2 with
      | none => none
      | some (value, _) => if delim = ',' then some (key, value) else none

/-- The successive results of `std::getline` on a stream with the given contents. -/
def getlines : Text → List Text
  | [] => []
  | c :: cs =>
    if c = Char.ofNat 10 then [] :: getlines cs
    else
      match getlines cs with
      | [] => [[c]]
      | l :: ls => (c :: l) :: ls

/-- The record `log` writes: `key << "," << value << std::endl`. -/
def logLine (key value : Int) : Text :=
  to_string key ++ ',' :: (to_string value ++ [Char.ofNat 10])

/-! ## Bucket documents

`nlohmann::json` is used for objects that map decimal key strings to integers. An object is
kept as the key-ordered member list of the underlying `std::map`; `dump` prints the compact
form and `parseJson` reads the documents `dump` prints (whitespace, escapes and values other
than integers are not modelled and count as unparsable). -/

/-- A JSON object with integer members, in key order. -/
abbrev Json := List (Text × Int)

/-- Byte-wise lexicographic order of `std::string`. -/
def strLt : Text → Text → Bool
  | [], [] => false
  | [], _ :: _ => true
  | _ :: _, [] => false
  | a :: as, b :: bs => a.toNat < b.toNat || (a.toNat == b.toNat && strLt as bs)

/-- Member test, `bucket.contains(keyStr)`. -/
def Json.contains (j : Json) (k : Text) : Bool := (List.lookup k j).isSome

/-- Member read, `bucket[keyStr]` on a key that is present. -/
def Json.at (j : Json) (k : Text) : Int := (List.lookup k j).getD 0

/-- Member write, `bucket[keyStr] = value`: replace the member or insert it in key order. -/
def Json.assign : Json → Text → Int → Json
  | [], k, v => [(k, v)]
  | (hk, hv) :: rest, k, v =>
    if k = hk then (k, v) :: rest
    else if strLt k hk then (k, v) :: (hk, hv) :: rest
    else (hk, hv) :: Json.assign rest k v

/-- The double quote. -/
def QUOTE : Char := Char.ofNat 34

/-- The backslash. -/
def BACKSLASH : Char := Char.ofNat 92

/-- The opening brace. -/
def LBRACE : Char := Char.ofNat 123

/-- The closing brace. -/
def RBRACE : Char := Char.ofNat 125

/-- The document of an empty object, written when a bucket file is first referenced. -/
def emptyDocument : Text := [LBRACE, RBRACE]

/-- One member in compact form: the quoted key, a colon, the value. -/
def dumpMember (e : Text × Int) : Text := QUOTE :: (e.1 ++ QUOTE :: ':' :: to_string e.2)

/-- The members separated by commas. -/
def dumpMembers : List (Text × Int) → Text
  | [] => []
  | [e] => dumpMember e
  | e :: e2 :: es => dumpMember e ++ ',' :: dumpMembers (e2 :: es)

/-- The compact serialisation `bucket.dump()`. -/
def dump (j : Json) : Text := LBRACE :: (dumpMembers j ++ [RBRACE])

/-- Read a key up to its closing quote (the opening quote is already consumed). -/
def parseKey : Text → Option (Text × Text)
  | [] => none
  | c :: cs =>
    if c = QUOTE then some ([], cs)
    else if c = BACKSLASH then none
    else
      match parseKey cs with
      | none => none
      | some (k, r) => some (c :: k, r)

/-- Read a JSON integer: an optional minus sign and digits. -/
def parseNumber (s : Text) : Option (Int × Text) :=
  if s.head? = some '+' then none else readSigned s

/-- Read members up to and including the closing brace. -/
def parseMembers : Nat → Text → Option (Json × Text)
  | 0, _ => none
  | fuel + 1, s =>
    match s with
    | [] => none
    | q :: s0 =>
      if q = QUOTE then
        match parseKey s0 with
        | none => none
        | some (k, s1) =>
          match s1 with
          | [] => none
          | col :: s2 =>
            if col = ':' then
              match parseNumber s2 with
              | none => none
              | some (v, s3) =>
                match s3 with
                | [] => none
                | c3 :: s4 =>
                  if c3 = ',' then
                    match parseMembers fuel s4 with
                    | none => none
                    | some (m, r) => some ((k, v) :: m, r)
                  else if c3 = RBRACE then some ([(k, v)], s4)
                  else none
            else none
      else none

/-- Parse a bucket document, `bucketFile >> bucket`. -/
def parseJson (s : Text) : Option Json :=
  match s with
  | [] => none
  | c :: r =>
    if c = LBRACE then
      match r with
      | [] => none
      | c2 :: r2 =>
        if c2 = RBRACE then (if r2 = [] then some [] else none)
        else
          match parseMembers r.length r with
          | some (m, []) => some m
          | _ => none
    else none

/-! ## Filesystem -/

/-- A filesystem entry: a directory or a regular file with its contents. -/
inductive Node where
  | dir : Node
  | file (content : Text) : Node
  deriving DecidableEq

/-- A path as its list of components; the empty list is the root the paths start from. -/
abbrev Path := List String

/-- The filesystem: what each path holds. -/
abbrev FS := Path → Option Node

/-- A filesystem holding only the root directory. -/
def emptyFS : FS := fun p => if p = [] then some Node.dir else none

/-- Every existing entry lies in an existing directory (so nothing lies under a missing
path or under a regular file). -/
def FS.wellFormed (fs : FS) : Prop :=
  ∀ (p : Path) (x : String), fs (p ++ [x]) ≠ none → fs p = some Node.dir

/-- The entry is a regular file. -/
def Node.isFile : Option Node → Bool
  | some (Node.file _) => true
  | _ => false

/-- The test `std::filesystem::exists`. -/
def pathExists (fs : FS) (p : Path) : Bool := (fs p).isSome

/-- The call `std::filesystem::remove_all`: the entry and everything below it go. -/
def remove_all (fs : FS) (p : Path) : FS := fun q => if p <+: q then none else fs q

/-- The call `std::filesystem::create_directories`: every missing directory on the path is
created; it fails (throws) when some component of the path is a regular file. -/
def create_directories (fs : FS) (p : Path) : Option FS :=
  if p.inits.any (fun q => Node.isFile (fs q)) then none
  else some (fun q => if q <+: p then some Node.dir else fs q)

/-- Whether an output stream on the path opens: the path is a regular file, or it is absent
and its parent is a directory. -/
def canOpenForWrite (fs : FS) (p : Path) : Bool :=
  match fs p with
  | some (Node.file _) => true
  | some Node.dir => false
  | none => decide (fs p.dropLast = some Node.dir)

/-- Open with truncation and write, `std::ofstream(p) << content`; nothing happens when the
stream does not open. -/
def writeFile (fs : FS) (p : Path) (content : Text) : FS :=
  if canOpenForWrite fs p then Function.update fs p (some (Node.file content)) else fs

/-- The contents of a regular file, what an input stream on the path delivers. -/
def readFile (fs : FS) (p : Path) : Option Text :=
  match fs p with
  | some (Node.file c) => some c
  | _ => none

/-- Open for append and write, `std::ofstream(p, std::ios::app) << content`. -/
def appendFile (fs : FS) (p : Path) (content : Text) : FS :=
  if canOpenForWrite fs p then
    Function.update fs p (some (Node.file ((readFile fs p).getD [] ++ content)))
  else fs

/-! ## The table -/

/-- The failures the operations report. `KeyNotFound`, `LogNotFound` and `InvalidLogFormat`
are the three `std::runtime_error`s of the source; `CorruptBucket` is the parse error of the
JSON library, `FilesystemError` the error of `create_directories`. -/
inductive Error where
  | KeyNotFound
  | LogNotFound
  | InvalidLogFormat
  | CorruptBucket
  | FilesystemError
  deriving DecidableEq

deriving instance DecidableEq for Except

/-- The data members of the class; `log_file` is the empty path when logging is off. -/
structure PersistentHashTable where
  table_dir : Path
  bucket_mag : Nat
  log_file : Path
  deriving DecidableEq

/-- The name of the log file inside the table directory. -/
def logName : String := "log.txt"

/-- The path of the bucket file of a key, `table_dir / (hash(key) + ".json")`. -/
def bucketPathOf (t : PersistentHashTable) (key : Int) : Path :=
  t.table_dir ++ [String.mk (hash t.bucket_mag key ++ ".json".toList)]

/-- The method `getBucketPath`: the bucket path of the key; when nothing exists there, the
file is created holding an empty object. -/
def getBucketPath (t : PersistentHashTable) (fs : FS) (key : Int) : FS × Path :=
  if pathExists fs (bucketPathOf t key) then (fs, bucketPathOf t key)
  else (writeFile fs (bucketPathOf t key) emptyDocument, bucketPathOf t key)

/-- The method `log`: append the record when logging is on. -/
def log (t : PersistentHashTable) (fs : FS) (key value : Int) : FS :=
  if t.log_file ≠ [] then appendFile fs t.log_file (logLine key value) else fs

/-- The method `getLogFile`. -/
def getLogFile (t : PersistentHashTable) : Path := t.log_file

/-- The method `getItem`: the filesystem afterwards and the value or the failure. -/
def getItem (t : PersistentHashTable) (fs : FS) (key : Int) : FS × Except Error Int :=
  let r := getBucketPath t fs key
  match (readFile r.1 r.2).bind parseJson with
  | none => (r.1, Except.error Error.CorruptBucket)
  | some bucket =>
    if Json.contains bucket (to_string key) then
      (r.1, Except.ok (toInt32 (Json.at bucket (to_string key))))
    else (r.1, Except.error Error.KeyNotFound)

/-- The method `setItem`: the filesystem afterwards and whether the call returned. -/
def setItem (t : PersistentHashTable) (fs : FS) (key value : Int) : FS × Except Error Unit :=
  let r := getBucketPath t fs key
  match (readFile r.1 r.2).bind parseJson with
  | none => (r.1, Except.error Error.CorruptBucket)
  | some bucket =>
    (log t (writeFile r.1 r.2 (dump (Json.assign bucket (to_string key) value))) key value,
      Except.ok ())

/-- The part both constructors share: create the directory and, unless it exists, the log
file inside it. -/
def ensureLog (fs : FS) (log_file : Path) : FS :=
  if pathExists fs log_file then fs else writeFile fs log_file []

/-- The ordinary constructor `PersistentHashTable(table_dir, log, bucket_mag)`. -/
def construct (fs : FS) (table_dir : Path) (logging : Bool) (bucket_mag : Nat) :
    FS × Except Error PersistentHashTable :=
  match create_directories fs table_dir with
  | none => (fs, Except.error Error.FilesystemError)
  | some fs1 =>
    if logging then
      (ensureLog fs1 (table_dir ++ [logName]),
        Except.ok ⟨table_dir, bucket_mag, table_dir ++ [logName]⟩)
    else (fs1, Except.ok ⟨table_dir, bucket_mag, []⟩)

/-- The replay loop of the recovery constructor over the lines `getline` delivers: a line
that does not parse throws, every other line is written through `setItem`. -/
def replay (t : PersistentHashTable) : FS → List Text → FS × Except Error PersistentHashTable
  | fs, [] => (fs, Except.ok t)
  | fs, line :: rest =>
    match parseLine line with
    | none => (fs, Except.error Error.InvalidLogFormat)
    | some (key, value) =>
      match setItem t fs key value with
      | (fs1, Except.ok _) => replay t fs1 rest
      | (fs1, Except.error e) => (fs1, Except.error e)

/-- The lines an input stream on the path delivers; a stream that does not open or that is
on a directory delivers none. -/
def linesOf (fs : FS) (p : Path) : List Text :=
  match readFile fs p with
  | some c => getlines c
  | none => []

/-- The recovery constructor `PersistentHashTable(log_path, table_dir, bucket_mag)`. The
source log is read once it is opened, after the wipe: the loop body writes below `table_dir`
only, where after the wipe the source log is either absent or the fresh empty log. -/
def recover (fs : FS) (log_path table_dir : Path) (bucket_mag : Nat) :
    FS × Except Error PersistentHashTable :=
  if !pathExists fs log_path then (fs, Except.error Error.LogNotFound)
  else
    let fs1 := if pathExists fs table_dir then remove_all fs table_dir else fs
    match create_directories fs1 table_dir with
    | none => (fs1, Except.error Error.FilesystemError)
    | some fs2 =>
      let fs3 := ensureLog fs2 (table_dir ++ [logName])
      replay ⟨table_dir, bucket_mag, table_dir ++ [logName]⟩ fs3 (linesOf fs3 log_path)


/-! ## Vocabulary of the statements -/

/-- The value of a digit character in bases up to sixteen. -/
def digitValue (c : Char) : Nat := if c.isDigit then c.toNat - 48 else c.toNat - 87

/-- The number a digit string denotes in the given base. -/
def textValue (b : Nat) (s : Text) : Nat := s.foldl (fun a c => a * b + digitValue c) 0

/-- The text does not start with a decimal digit. -/
def noDigitHead (s : Text) : Prop := ∀ c, s.head? = some c → c.isDigit = false

/-- A key that prints without escapes: no quote and no backslash. -/
def cleanKey (k : Text) : Prop := QUOTE ∉ k ∧ BACKSLASH ∉ k

/-- Every key of the object prints without escapes. -/
def Json.clean (j : Json) : Prop := ∀ e ∈ j, cleanKey e.1


/-- The log setting a constructor leaves: no log, or `log.txt` inside the table directory. -/
def PersistentHashTable.constructed (t : PersistentHashTable) : Prop :=
  t.log_file = [] ∨ t.log_file = t.table_dir ++ [logName]

/-- The bucket magnitudes whose shift `1 << (bucket_mag * 4)` fits an `int`. -/
def validMag (m : Nat) : Prop := 1 ≤ m ∧ m ≤ 7

instance (m : Nat) : Decidable (validMag m) := by
  unfold validMag
  exact inferInstance

/-- The directory is in good order: it is a directory, and every entry directly inside it is
a regular file that, unless it is the log, holds a bucket document. -/
def DirOK (fs : FS) (dir : Path) : Prop :=
  fs dir = some Node.dir ∧
  ∀ x : String, fs (dir ++ [x]) = none ∨
    ∃ c, fs (dir ++ [x]) = some (Node.file c) ∧ (x ≠ logName → ∃ j, parseJson c = some j)

/-- The table is in good order on the filesystem: its directory is, and its log file (when
logging is on) is a regular file. -/
def TableOK (t : PersistentHashTable) (fs : FS) : Prop :=
  t.constructed ∧ DirOK fs t.table_dir ∧
    (t.log_file ≠ [] → ∃ c, fs t.log_file = some (Node.file c))

/-- What the bucket document of the shard of the key stores for the key. -/
def stored (t : PersistentHashTable) (fs : FS) (key : Int) : Option Int :=
  ((readFile fs (bucketPathOf t key)).bind parseJson).bind (List.lookup (to_string key))

/-- The outcome of a read that finds the given entry. -/
def outcomeOf (o : Option Int) : Except Error Int :=
  match o with
  | some v => Except.ok v
  | none => Except.error Error.KeyNotFound

/-- The filesystem after a sequence of `setItem` calls. -/
def applySets (t : PersistentHashTable) (fs : FS) (hist : List (Int × Int)) : FS :=
  hist.foldl (fun f r => (setItem t f r.1 r.2).1) fs

/-- The value of the last record for the key, when there is one. -/
def lastWrite : List (Int × Int) → Int → Option Int
  | [], _ => none
  | (k, v) :: rest, key =>
    match lastWrite rest key with
    | some w => some w
    | none => if k = key then some v else none

/-- A call of the public interface of a table. -/
inductive Call where
  | get (key : Int) : Call
  | set (key value : Int) : Call

/-- The filesystem after one call. -/
def applyCall (t : PersistentHashTable) (fs : FS) : Call → FS
  | Call.get key => (getItem t fs key).1
  | Call.set key value => (setItem t fs key value).1

/-- The filesystem after a sequence of calls. -/
def applyCalls (t : PersistentHashTable) (fs : FS) (calls : List Call) : FS :=
  calls.foldl (applyCall t) fs

/-- The writes among the calls, in call order. -/
def writesOf : List Call → List (Int × Int)
  | [] => []
  | Call.get _ :: rest => writesOf rest
  | Call.set key value :: rest => (key, value) :: writesOf rest

/-- The directory is fresh: it does not exist or it is an empty directory. -/
def Fresh (fs : FS) (dir : Path) : Prop :=
  (fs dir = none ∨ fs dir = some Node.dir) ∧ ∀ q, dir <+: q → q ≠ dir → fs q = none

/-- The states of a table reached through the interface: construction on a fresh directory,
recovery from a log, reopening the directory of a table, and any `getItem` and `setItem`
calls after that. -/
inductive Reachable : PersistentHashTable → FS → Prop where
  | construct (fs : FS) (dir : Path) (logging : Bool) (m : Nat) (t : PersistentHashTable)
      (fs1 : FS) : Fresh fs dir → validMag m →
      SpillHashTable.construct fs dir logging m = (fs1, Except.ok t) → Reachable t fs1
  | recover (fs : FS) (log_path dir : Path) (m : Nat) (t : PersistentHashTable) (fs1 : FS) :
      fs.wellFormed → validMag m →
      SpillHashTable.recover fs log_path dir m = (fs1, Except.ok t) → Reachable t fs1
  | reopen (t0 : PersistentHashTable) (fs : FS) (logging : Bool) (m : Nat)
      (t : PersistentHashTable) (fs1 : FS) : Reachable t0 fs → validMag m →
      SpillHashTable.construct fs t0.table_dir logging m = (fs1, Except.ok t) → Reachable t fs1
  | getItem (t : PersistentHashTable) (fs : FS) (key : Int) :
      Reachable t fs → isInt32 key → Reachable t (SpillHashTable.getItem t fs key).1
  | setItem (t : PersistentHashTable) (fs : FS) (key value : Int) :
      Reachable t fs → isInt32 key → isInt32 value →
      Reachable t (SpillHashTable.setItem t fs key value).1

/-- The shard ids of all 32-bit keys. -/
def shardIds (m : Nat) : Finset Text := (Finset.Icc INT_MIN INT_MAX).image (hash m)

/-- The bucket document a path holds; the empty object when there is none. -/
def docOf (fs : FS) (p : Path) : Json := ((readFile fs p).bind parseJson).getD []

/-- The directory exists and is empty. -/
def EmptyDir (fs : FS) (dir : Path) : Prop :=
  fs dir = some Node.dir ∧ ∀ x : String, fs (dir ++ [x]) = none

/-- The records of the lines up to the first line that does not parse. -/
def recordsOf : List Text → List (Int × Int)
  | [] => []
  | l :: ls =>
    match parseLine l with
    | none => []
    | some r => r :: recordsOf ls

/-- The text of a record without its newline. -/
def recordText (r : Int × Int) : Text := to_string r.1 ++ ',' :: to_string r.2

/-- No path component above the directory is a regular file, so the directory can be
created. -/
def Creatable (fs : FS) (dir : Path) : Prop :=
  ∀ q, q <+: dir → q ≠ dir → Node.isFile (fs q) = false

/-- The filesystem the recovery constructor has made when its replay loop starts: the table
directory wiped and created again, with a fresh log file inside. -/
def recoverStart (fs : FS) (dir : Path) : Option FS :=
  (create_directories (if pathExists fs dir then remove_all fs dir else fs) dir).map
    (fun fs2 => ensureLog fs2 (dir ++ [logName]))

/-- Every line parses. -/
def allParse (lines : List Text) : Bool := lines.all (fun l => (parseLine l).isSome)

/-! ## Concrete scenario: a table of magnitude 2 in the directory `t` -/

/-- The table of the example scenario. -/
def demoTable : PersistentHashTable := ⟨["t"], 2, ["t", "log.txt"]⟩

/-- The filesystem after constructing the example table on an empty filesystem. -/
def demoFS : FS := (construct emptyFS ["t"] true 2).1

/-- The example scenario: `setItem(5, 100)` then `setItem(21, 200)`. -/
def demoHistory : List (Int × Int) := [(5, 100), (21, 200)]

/-- A second table, of magnitude 3 in the directory `u`. -/
def otherTable : PersistentHashTable := ⟨["u"], 3, ["u", "log.txt"]⟩

/-- Follows the spec's words: a decimal integer, an optional minus sign and at least one
digit. -/
def isDecimalInteger (s : Text) : Bool :=
  match s with
  | [] => false
  | c :: cs => if c = '-' then !cs.isEmpty && cs.all Char.isDigit else (c :: cs).all Char.isDigit

/-- Follows the spec's words: the line is exactly of the form `<int>,<int>`, a decimal
integer, a comma, a decimal integer and nothing else. -/
def exactRecordForm (line : Text) : Bool :=
  isDecimalInteger (line.takeWhile (fun c => c != ',')) &&
    match line.dropWhile (fun c => c != ',') with
    | [] => false
    | _ :: rest => isDecimalInteger rest

/-- A filesystem whose only file holds the given text, at the path `src.txt`. -/
def sourceFS (content : Text) : FS := writeFile emptyFS ["src.txt"] content

/-- A table of magnitude 3 in the directory `d/t`. -/
def nestedTable : PersistentHashTable := ⟨["d", "t"], 3, ["d", "t", "log.txt"]⟩

/-- The filesystem after constructing the table in `d/t` on an empty filesystem and writing
key 1 with value 2. -/
def nestedFS : FS := (setItem nestedTable (construct emptyFS ["d", "t"] true 3).1 1 2).1

/-- The table the recovery constructor makes in the directory `d`. -/
def parentTable : PersistentHashTable := ⟨["d"], 3, ["d", "log.txt"]⟩

/-- The table the recovery constructor makes in `d/t/1.json`, the place of a bucket file of
the table in `d/t`. -/
def insideTable : PersistentHashTable :=
  ⟨["d", "t", "1.json"], 3, ["d", "t", "1.json", "log.txt"]⟩

/-! ## Vocabulary of the later statements -/

/-- The sixteen lower-case digits of base 16. -/
def hexDigitChar (d : Nat) : Char := "0123456789abcdef".toList.getD d '0'

/-- Follows the spec's words: the lower-case base-16 rendering of a number, most significant
digit first, without leading zeros, and `0` for zero. -/
def base16 (n : Nat) : Text :=
  if n = 0 then ['0'] else (Nat.digits 16 n).reverse.map hexDigitChar

/-- The filesystem of the example table after its history. -/
def demoAfter : FS := applySets demoTable demoFS demoHistory

/-- The example table after its history, with the line `abc,5` put at the end of its log. -/
def badLogFS : FS := appendFile demoAfter ["t", "log.txt"] "abc,5\n".toList

/-- Every key of the object is the decimal rendering of an integer. -/
def decimalKeys (j : Json) : Prop := ∀ e ∈ j, ∃ k : Int, e.1 = to_string k

/-- Every regular file directly inside the directory, the log apart, holds a bucket document
whose keys are decimal integers. -/
def BucketsValid (fs : FS) (dir : Path) : Prop :=
  ∀ (x : String) (c : Text), x ≠ logName → fs (dir ++ [x]) = some (Node.file c) →
    ∃ j, parseJson c = some j ∧ decimalKeys j

/-! ## Interleaved execution

A thread of the thread-safety scenario runs `setItem(key, value)` and then `getItem(key)`.
Each call is cut into the atomic steps of its statements on shared state, in source order:
the existence test and the creation of the bucket file in `getBucketPath`, the acquisition
of the bucket lock, the read, the write, the log append, and the release of the lock when the
call ends. -/

/-- The next atomic step of a thread. -/
inductive Pc where
  | setCheck : Pc
  | setCreate : Pc
  | setAcquire : Pc
  | setRead : Pc
  | setWrite (bucket : Json) : Pc
  | setLog : Pc
  | setRelease : Pc
  | getCheck : Pc
  | getCreate : Pc
  | getAcquire : Pc
  | getRead : Pc
  | getRelease (r : Except Error Int) : Pc
  | done (r : Except Error Int) : Pc
  deriving DecidableEq

/-- A thread: the arguments of its calls and its next step. -/
structure Thread where
  key : Int
  value : Int
  pc : Pc
  deriving DecidableEq

/-- The shared state: the filesystem, the bucket locks that are held (with the index of the
holding thread), and the threads. -/
structure World where
  fs : FS
  locks : List (Path × Nat)
  threads : List Thread

/-- The world after thread i has moved to the given step. -/
def World.goto (w : World) (i : Nat) (th : Thread) (pc : Pc) (fs : FS)
    (locks : List (Path × Nat)) : World :=
  ⟨fs, locks, w.threads.set i { th with pc := pc }⟩

/-- The mutex of the bucket path is held by some thread. -/
def World.locked (w : World) (p : Path) : Bool := w.locks.any (fun l => l.1 == p)

/-- Thread i holds the mutex of the bucket path. -/
def World.holds (w : World) (i : Nat) (p : Path) : Bool := w.locks.contains (p, i)

/-- One atomic step of thread i; none when the thread has finished or waits for a lock. -/
def step (t : PersistentHashTable) (w : World) (i : Nat) : Option World :=
  match w.threads.get? i with
  | none => none
  | some th =>
    match th.pc with
    | Pc.setCheck =>
      some (w.goto i th (if pathExists w.fs (bucketPathOf t th.key) then Pc.setAcquire
        else Pc.setCreate) w.fs w.locks)
    | Pc.setCreate =>
      some (w.goto i th Pc.setAcquire
        (writeFile w.fs (bucketPathOf t th.key) emptyDocument) w.locks)
    | Pc.setAcquire =>
      if w.locked (bucketPathOf t th.key) then none
      else some (w.goto i th Pc.setRead w.fs ((bucketPathOf t th.key, i) :: w.locks))
    | Pc.setRead =>
      match (readFile w.fs (bucketPathOf t th.key)).bind parseJson with
      | none =>
        some (w.goto i th (Pc.done (Except.error Error.CorruptBucket)) w.fs
          (w.locks.erase (bucketPathOf t th.key, i)))
      | some bucket => some (w.goto i th (Pc.setWrite bucket) w.fs w.locks)
    | Pc.setWrite bucket =>
      some (w.goto i th Pc.setLog
        (writeFile w.fs (bucketPathOf t th.key)
          (dump (Json.assign bucket (to_string th.key) th.value))) w.locks)
    | Pc.setLog => some (w.goto i th Pc.setRelease (log t w.fs th.key th.value) w.locks)
    | Pc.setRelease =>
      some (w.goto i th Pc.getCheck w.fs (w.locks.erase (bucketPathOf t th.key, i)))
    | Pc.getCheck =>
      some (w.goto i th (if pathExists w.fs (bucketPathOf t th.key) then Pc.getAcquire
        else Pc.getCreate) w.fs w.locks)
    | Pc.getCreate =>
      some (w.goto i th Pc.getAcquire
        (writeFile w.fs (bucketPathOf t th.key) emptyDocument) w.locks)
    | Pc.getAcquire =>
      if w.locked (bucketPathOf t th.key) then none
      else some (w.goto i th Pc.getRead w.fs ((bucketPathOf t th.key, i) :: w.locks))
    | Pc.getRead =>
      match (readFile w.fs (bucketPathOf t th.key)).bind parseJson with
      | none =>
        some (w.goto i th (Pc.done (Except.error Error.CorruptBucket)) w.fs
          (w.locks.erase (bucketPathOf t th.key, i)))
      | some bucket =>
        some (w.goto i th
          (Pc.getRelease
            (if Json.contains bucket (to_string th.key) then
              Except.ok (toInt32 (Json.at bucket (to_string th.key)))
            else Except.error Error.KeyNotFound)) w.fs w.locks)
    | Pc.getRelease r =>
      some (w.goto i th (Pc.done r) w.fs (w.locks.erase (bucketPathOf t th.key, i)))
    | Pc.done _ => none

/-- The world after the threads have stepped in the order of the schedule; none when the
schedule asks a thread to step that cannot. -/
def run (t : PersistentHashTable) : World → List Nat → Option World
  | w, [] => some w
  | w, i :: rest =>
    match step t w i with
    | none => none
    | some w1 => run t w1 rest

/-- Where each thread stands. -/
def World.pcs (w : World) : List Pc := w.threads.map (fun th => th.pc)

/-- Two threads on the fresh example table: thread 0 writes and reads key 5, thread 1 writes
and reads key 261, a key of the same shard. -/
def raceWorld : World :=
  ⟨demoFS, [], [⟨5, 100, Pc.setCheck⟩, ⟨261, 200, Pc.setCheck⟩]⟩

/-- An interleaving: thread 1 tests that the bucket file does not exist; thread 0 runs its
whole `setItem` (seven steps). -/
def raceOpening : List Nat := [1, 0, 0, 0, 0, 0, 0, 0]

/-- The interleaving continued: thread 1 creates the bucket file; thread 0 runs its
`getItem` (four steps). -/
def raceSchedule : List Nat := raceOpening ++ [1, 0, 0, 0, 0]

/-! ## Lemmas and theorems -/

theorem toDigits_small (b n : Nat) (h : n / b = 0) :
    Nat.toDigits b n = [Nat.digitChar (n % b)] := by
  simp [Nat.toDigits, Nat.toDigitsCore, h]

theorem toDigitsCore_eq (b : Nat) (hb : 2 ≤ b) (n : Nat) :
    ∀ fuel ds, n < fuel → Nat.toDigitsCore b fuel n ds = Nat.toDigits b n ++ ds := by
  induction n using Nat.strong_induction_on with
  | _ n ih =>
    intro fuel ds hf
    cases fuel with
    | zero => omega
    | succ f =>
      by_cases h0 : n / b = 0
      · rw [toDigits_small b n h0]
        simp [Nat.toDigitsCore, h0]
      · have hn : 0 < n := by
          rcases Nat.eq_zero_or_pos n with h | h
          · subst h; simp at h0
          · exact h
        have hlt : n / b < n := Nat.div_lt_self hn hb
        have e1 : Nat.toDigitsCore b (f + 1) n ds
            = Nat.toDigitsCore b f (n / b) (Nat.digitChar (n % b) :: ds) := by
          simp [Nat.toDigitsCore, h0]
        have e2 : Nat.toDigits b n
            = Nat.toDigitsCore b n (n / b) [Nat.digitChar (n % b)] := by
          simp [Nat.toDigits, Nat.toDigitsCore, h0]
        rw [e1, e2, ih (n / b) hlt f _ (by omega), ih (n / b) hlt n _ hlt]
        simp

theorem toDigits_step (b : Nat) (hb : 2 ≤ b) (n : Nat) (h : n / b ≠ 0) :
    Nat.toDigits b n = Nat.toDigits b (n / b) ++ [Nat.digitChar (n % b)] := by
  have hn : 0 < n := by
    rcases Nat.eq_zero_or_pos n with h1 | h1
    · subst h1; simp at h
    · exact h1
  have hlt : n / b < n := Nat.div_lt_self hn hb
  have e2 : Nat.toDigits b n
      = Nat.toDigitsCore b n (n / b) [Nat.digitChar (n % b)] := by
    simp [Nat.toDigits, Nat.toDigitsCore, h]
  rw [e2, toDigitsCore_eq b hb (n / b) n _ hlt]

/-- Induction principle for the digits of a number. -/
theorem toDigits_induction (b : Nat) (hb : 2 ≤ b) (P : Nat → List Char → Prop)
    (small : ∀ n, n < b → P n [Nat.digitChar n])
    (step : ∀ n, b ≤ n → P (n / b) (Nat.toDigits b (n / b)) →
      P n (Nat.toDigits b (n / b) ++ [Nat.digitChar (n % b)])) :
    ∀ n, P n (Nat.toDigits b n) := by
  intro n
  induction n using Nat.strong_induction_on with
  | _ n ih =>
    by_cases h0 : n / b = 0
    · have hlt : n < b := by
        rcases (Nat.div_eq_zero_iff (by omega : 0 < b)).mp h0 with h
        exact h
      rw [toDigits_small b n h0, Nat.mod_eq_of_lt hlt]
      exact small n hlt
    · have hge : b ≤ n := by
        by_contra hc
        exact h0 (Nat.div_eq_of_lt (by omega))
      rw [toDigits_step b hb n h0]
      exact step n hge (ih (n / b) (Nat.div_lt_self (by omega) hb))

theorem digitChar_value : ∀ d, d < 16 → digitValue (Nat.digitChar d) = d := by decide

theorem digitChar_isDigit : ∀ d, d < 10 →
    (Nat.digitChar d).isDigit = true ∧ (Nat.digitChar d).toNat - 48 = d := by decide

theorem textValue_append (b : Nat) (s : Text) (c : Char) :
    textValue b (s ++ [c]) = textValue b s * b + digitValue c := by
  simp [textValue, List.foldl_append]

theorem textValue_toDigits (b : Nat) (hb : 2 ≤ b) (hb16 : b ≤ 16) (n : Nat) :
    textValue b (Nat.toDigits b n) = n := by
  refine toDigits_induction b hb (fun n ds => textValue b ds = n) ?_ ?_ n
  · intro n hn
    simp [textValue, digitChar_value n (by omega)]
  · intro n _ ih
    rw [textValue_append, ih, digitChar_value _ (by have := Nat.mod_lt n (by omega : 0 < b); omega)]
    exact Nat.div_add_mod' n b

theorem toDigits_injective (b : Nat) (hb : 2 ≤ b) (hb16 : b ≤ 16) (n m : Nat)
    (h : Nat.toDigits b n = Nat.toDigits b m) : n = m := by
  have := congrArg (textValue b) h
  rwa [textValue_toDigits b hb hb16, textValue_toDigits b hb hb16] at this

theorem readDigits_noDigitHead (acc : Nat) (s : Text) (h : noDigitHead s) :
    readDigits acc s = (acc, s) := by
  cases s with
  | nil => rfl
  | cons c cs =>
    have hc : c.isDigit = false := h c rfl
    simp [readDigits, hc]

theorem readDigits_toDigits (n : Nat) :
    ∀ acc rest, readDigits acc (Nat.toDigits 10 n ++ rest)
      = readDigits (acc * 10 ^ (Nat.toDigits 10 n).length + n) rest := by
  refine toDigits_induction 10 (by decide)
    (fun n ds => ∀ acc rest, readDigits acc (ds ++ rest)
      = readDigits (acc * 10 ^ ds.length + n) rest) ?_ ?_ n
  · intro n hn acc rest
    obtain ⟨h1, h2⟩ := digitChar_isDigit n hn
    simp [readDigits, h1, h2]
  · intro n _ ih acc rest
    have hm : n % 10 < 10 := Nat.mod_lt n (by decide)
    obtain ⟨h1, h2⟩ := digitChar_isDigit (n % 10) hm
    rw [List.append_assoc, ih]
    simp only [List.singleton_append, readDigits, h1, if_true, h2, List.length_append,
      List.length_singleton]
    congr 1
    rw [pow_succ]
    have := Nat.div_add_mod' n 10
    nlinarith [this]

/-- The decimal digits of a number start with a digit. -/
theorem toDigits_ten_head (n : Nat) :
    ∃ c cs, Nat.toDigits 10 n = c :: cs ∧ c.isDigit = true := by
  refine toDigits_induction 10 (by decide)
    (fun _ ds => ∃ c cs, ds = c :: cs ∧ c.isDigit = true) ?_ ?_ n
  · intro n hn
    exact ⟨_, [], rfl, (digitChar_isDigit n hn).1⟩
  · intro n _ ih
    obtain ⟨c, cs, h, hc⟩ := ih
    exact ⟨c, cs ++ [Nat.digitChar (n % 10)], by rw [h]; rfl, hc⟩

/-- Every character of the decimal digits is a digit. -/
theorem toDigits_ten_all (n : Nat) : ∀ c ∈ Nat.toDigits 10 n, c.isDigit = true := by
  refine toDigits_induction 10 (by decide)
    (fun _ ds => ∀ c ∈ ds, c.isDigit = true) ?_ ?_ n
  · intro n hn c hc
    simp at hc
    subst hc
    exact (digitChar_isDigit n hn).1
  · intro n _ ih c hc
    rcases List.mem_append.mp hc with h | h
    · exact ih c h
    · simp at h
      subst h
      exact (digitChar_isDigit _ (Nat.mod_lt n (by decide))).1

theorem readSigned_to_string (k : Int) (rest : Text) (h : noDigitHead rest) :
    readSigned (to_string k ++ rest) = some (k, rest) := by
  cases k with
  | ofNat n =>
    obtain ⟨c, cs, hcs, hc⟩ := toDigits_ten_head n
    have hm : c ≠ '-' := by rintro rfl; simp at hc
    have hp : c ≠ '+' := by rintro rfl; simp at hc
    have hr := readDigits_toDigits n 0 rest
    rw [readDigits_noDigitHead _ _ h] at hr
    simp only [to_string]
    rw [hcs] at hr ⊢
    simp only [List.cons_append, readSigned, hm, hp, hc, if_false, if_true] at hr ⊢
    rw [hr]
    simp
  | negSucc n =>
    obtain ⟨c, cs, hcs, hc⟩ := toDigits_ten_head (n + 1)
    have hr := readDigits_toDigits (n + 1) 0 rest
    rw [readDigits_noDigitHead _ _ h] at hr
    simp only [to_string]
    rw [hcs] at hr ⊢
    simp only [List.cons_append, readSigned, hc, if_true] at hr ⊢
    rw [hr]
    simp [Int.negSucc_eq]

theorem to_string_injective (a b : Int) (h : to_string a = to_string b) : a = b := by
  have ha := readSigned_to_string a [] (by intro c hc; simp at hc)
  have hb := readSigned_to_string b [] (by intro c hc; simp at hc)
  rw [h, hb] at ha
  simpa using ha.symm


theorem isDigit_toNat (c : Char) (h : c.isDigit = true) : 48 ≤ c.toNat ∧ c.toNat ≤ 57 := by
  simp only [Char.isDigit, Bool.and_eq_true, decide_eq_true_eq] at h
  obtain ⟨h1, h2⟩ := h
  have e1 : (48 : UInt32).toNat ≤ c.val.toNat := h1
  have e2 : c.val.toNat ≤ (57 : UInt32).toNat := h2
  exact ⟨e1, e2⟩

theorem numChar_facts (c : Char) (h : c.isDigit = true ∨ c = '-') :
    isSpace c = false ∧ c ≠ Char.ofNat 10 ∧ c ≠ QUOTE ∧ c ≠ BACKSLASH ∧ c ≠ ',' ∧ c ≠ '+' := by
  rcases h with h | h
  · have := isDigit_toNat c h
    refine ⟨?_, ?_, ?_, ?_, ?_, ?_⟩
    · simp only [isSpace, Bool.or_eq_false_iff, Bool.and_eq_false_iff, decide_eq_false_iff_not]
      omega
    all_goals
      rintro rfl
      revert this
      decide
  · subst h
    decide

theorem to_string_chars (k : Int) : ∀ c ∈ to_string k, c.isDigit = true ∨ c = '-' := by
  intro c hc
  cases k with
  | ofNat n => exact Or.inl (toDigits_ten_all n c hc)
  | negSucc n =>
    simp only [to_string, List.mem_cons] at hc
    rcases hc with h | h
    · exact Or.inr h
    · exact Or.inl (toDigits_ten_all _ c h)

theorem to_string_head (k : Int) :
    ∃ c cs, to_string k = c :: cs ∧ (c.isDigit = true ∨ c = '-') := by
  cases k with
  | ofNat n =>
    obtain ⟨c, cs, h, hc⟩ := toDigits_ten_head n
    exact ⟨c, cs, h, Or.inl hc⟩
  | negSucc n => exact ⟨'-', _, rfl, Or.inr rfl⟩

theorem to_string_cleanKey (k : Int) : cleanKey (to_string k) := by
  constructor
  · intro h
    exact (numChar_facts _ (to_string_chars k _ h)).2.2.1 rfl
  · intro h
    exact (numChar_facts _ (to_string_chars k _ h)).2.2.2.1 rfl

theorem skipWs_of_head (c : Char) (cs : Text) (h : isSpace c = false) :
    skipWs (c :: cs) = c :: cs := by
  simp [skipWs, h]

theorem extractInt_to_string (k : Int) (rest : Text) (hk : isInt32 k) (h : noDigitHead rest) :
    extractInt (to_string k ++ rest) = some (k, rest) := by
  obtain ⟨c, cs, hcs, hc⟩ := to_string_head k
  have hs : skipWs (to_string k ++ rest) = to_string k ++ rest := by
    rw [hcs]
    exact skipWs_of_head c _ (numChar_facts c hc).1
  simp [extractInt, hs, readSigned_to_string k rest h, hk]

theorem noDigitHead_nil : noDigitHead [] := by
  intro c hc
  simp at hc

theorem noDigitHead_cons (c : Char) (cs : Text) (h : c.isDigit = false) :
    noDigitHead (c :: cs) := by
  intro d hd
  simp at hd
  subst hd
  exact h

/-- The record text without its newline. -/
theorem parseLine_record (k v : Int) (hk : isInt32 k) (hv : isInt32 v) :
    parseLine (to_string k ++ ',' :: to_string v) = some (k, v) := by
  have h1 := extractInt_to_string k (',' :: to_string v) hk (noDigitHead_cons _ _ (by decide))
  have h2 : extractChar (',' :: to_string v) = some (',', to_string v) := by
    simp [extractChar, skipWs, isSpace]
  have h3 := extractInt_to_string v [] hv noDigitHead_nil
  rw [List.append_nil] at h3
  simp [parseLine, h1, h2, h3]

theorem getlines_line (l rest : Text) (h : Char.ofNat 10 ∉ l) :
    getlines (l ++ Char.ofNat 10 :: rest) = l :: getlines rest := by
  induction l with
  | nil => simp [getlines]
  | cons c cs ih =>
    have hc : c ≠ Char.ofNat 10 := fun e => h (by simp [e])
    have hcs : Char.ofNat 10 ∉ cs := fun e => h (by simp [e])
    simp [getlines, hc, ih hcs]

theorem record_no_newline (k v : Int) : Char.ofNat 10 ∉ to_string k ++ ',' :: to_string v := by
  intro h
  rcases List.mem_append.mp h with h | h
  · exact (numChar_facts _ (to_string_chars k _ h)).2.1 rfl
  · rcases List.mem_cons.mp h with h | h
    · revert h; decide
    · exact (numChar_facts _ (to_string_chars v _ h)).2.1 rfl

theorem logLine_eq (k v : Int) :
    logLine k v = (to_string k ++ ',' :: to_string v) ++ [Char.ofNat 10] := by
  simp [logLine]

/-- Reading back a log made of records gives the records, line by line. -/
theorem getlines_records (hist : List (Int × Int)) :
    getlines (hist.flatMap (fun r => logLine r.1 r.2))
      = hist.map (fun r => to_string r.1 ++ ',' :: to_string r.2) := by
  induction hist with
  | nil => rfl
  | cons r rs ih =>
    simp only [List.flatMap_cons, List.map_cons]
    rw [logLine_eq, List.append_assoc, List.singleton_append,
      getlines_line _ _ (record_no_newline r.1 r.2), ih]

theorem lookup_assign_same (j : Json) (k : Text) (v : Int) :
    List.lookup k (Json.assign j k v) = some v := by
  induction j with
  | nil => simp [Json.assign, List.lookup]
  | cons e rest ih =>
    obtain ⟨hk, hv⟩ := e
    by_cases h1 : k = hk
    · simp [Json.assign, h1, List.lookup]
    · by_cases h2 : strLt k hk = true
      · simp [Json.assign, h1, h2, List.lookup]
      · have h3 : (k == hk) = false := by simpa using h1
        simp [Json.assign, h1, h2, List.lookup, h3, ih]

theorem lookup_assign_other (j : Json) (k k2 : Text) (v : Int) (hne : k2 ≠ k) :
    List.lookup k2 (Json.assign j k v) = List.lookup k2 j := by
  have hb : (k2 == k) = false := by simpa using hne
  induction j with
  | nil => simp [Json.assign, List.lookup, hb]
  | cons e rest ih =>
    obtain ⟨hk, hv⟩ := e
    by_cases h1 : k = hk
    · subst h1
      simp [Json.assign, List.lookup, hb]
    · by_cases h2 : strLt k hk = true
      · simp [Json.assign, h1, h2, List.lookup, hb]
      · simp only [Json.assign, h1, h2, if_false, List.lookup]
        rw [ih]

theorem clean_assign (j : Json) (k : Text) (v : Int) (hj : Json.clean j) (hk : cleanKey k) :
    Json.clean (Json.assign j k v) := by
  induction j with
  | nil =>
    intro e he
    simp [Json.assign] at he
    subst he
    exact hk
  | cons e rest ih =>
    obtain ⟨hk2, hv⟩ := e
    have hrest : Json.clean rest := fun e he => hj e (List.mem_cons_of_mem _ he)
    have hhead : cleanKey hk2 := hj (hk2, hv) (List.mem_cons_self _ _)
    intro e he
    by_cases h1 : k = hk2
    · rw [Json.assign, if_pos h1] at he
      rcases List.mem_cons.mp he with he | he
      · rw [he]; exact hk
      · exact hrest e he
    · by_cases h2 : strLt k hk2 = true
      · rw [Json.assign, if_neg h1, if_pos h2] at he
        rcases List.mem_cons.mp he with he | he
        · rw [he]; exact hk
        · rcases List.mem_cons.mp he with he | he
          · rw [he]; exact hhead
          · exact hrest e he
      · rw [Json.assign, if_neg h1, if_neg h2] at he
        rcases List.mem_cons.mp he with he | he
        · rw [he]; exact hhead
        · exact ih hrest e he

theorem parseKey_clean (k rest : Text) (hk : cleanKey k) :
    parseKey (k ++ QUOTE :: rest) = some (k, rest) := by
  induction k with
  | nil => simp [parseKey]
  | cons c cs ih =>
    have h1 : c ≠ QUOTE := fun e => hk.1 (by simp [e])
    have h2 : c ≠ BACKSLASH := fun e => hk.2 (by simp [e])
    have h3 : cleanKey cs := ⟨fun e => hk.1 (by simp [e]), fun e => hk.2 (by simp [e])⟩
    simp [parseKey, h1, h2, ih h3]

theorem parseKey_sound : ∀ (s k r : Text), parseKey s = some (k, r) → cleanKey k := by
  intro s
  induction s with
  | nil => intro k r h; simp [parseKey] at h
  | cons c cs ih =>
    intro k r h
    by_cases h1 : c = QUOTE
    · rw [parseKey, if_pos h1] at h
      simp only [Option.some.injEq, Prod.mk.injEq] at h
      rw [← h.1]
      exact ⟨by simp, by simp⟩
    · by_cases h2 : c = BACKSLASH
      · rw [parseKey, if_neg h1, if_pos h2] at h
        simp at h
      · simp only [parseKey, h1, h2, if_false] at h
        cases hp : parseKey cs with
        | none => simp [hp] at h
        | some kr =>
          obtain ⟨k2, r2⟩ := kr
          simp only [hp, Option.some.injEq, Prod.mk.injEq] at h
          have := ih k2 r2 hp
          rw [← h.1]
          exact ⟨by simpa [Ne.symm h1] using this.1, by simpa [Ne.symm h2] using this.2⟩

theorem parseNumber_to_string (v : Int) (rest : Text) (h : noDigitHead rest) :
    parseNumber (to_string v ++ rest) = some (v, rest) := by
  obtain ⟨c, cs, hcs, hc⟩ := to_string_head v
  have hp : (to_string v ++ rest).head? ≠ some '+' := by
    rw [hcs]
    simp only [List.cons_append, List.head?_cons, ne_eq, Option.some.injEq]
    exact (numChar_facts c hc).2.2.2.2.2
  rw [parseNumber, if_neg hp]
  exact readSigned_to_string v rest h

theorem parseMembers_dump (es : List (Text × Int)) :
    ∀ (e : Text × Int) (fuel : Nat) (rest : Text), Json.clean (e :: es) → es.length < fuel →
      parseMembers fuel (dumpMembers (e :: es) ++ RBRACE :: rest) = some (e :: es, rest) := by
  induction es with
  | nil =>
    intro e fuel rest hc hf
    obtain ⟨f, rfl⟩ : ∃ f, fuel = f + 1 := ⟨fuel - 1, by simp at hf; omega⟩
    have hk := parseKey_clean e.1 (':' :: (to_string e.2 ++ RBRACE :: rest))
      (hc e (List.mem_cons_self _ _))
    have hn := parseNumber_to_string e.2 (RBRACE :: rest) (noDigitHead_cons _ _ (by decide))
    have hr : RBRACE ≠ ',' := by decide
    simp only [dumpMembers, dumpMember, List.cons_append, List.append_assoc, parseMembers,
      if_true, hk, hn, hr, if_false]
  | cons e2 es ih =>
    intro e fuel rest hc hf
    obtain ⟨f, rfl⟩ : ∃ f, fuel = f + 1 := ⟨fuel - 1, by simp at hf; omega⟩
    have hk := parseKey_clean e.1
      (':' :: (to_string e.2 ++ ',' :: (dumpMembers (e2 :: es) ++ RBRACE :: rest)))
      (hc e (List.mem_cons_self _ _))
    have hn := parseNumber_to_string e.2 (',' :: (dumpMembers (e2 :: es) ++ RBRACE :: rest))
      (noDigitHead_cons _ _ (by decide))
    have hrec := ih e2 f rest (fun x hx => hc x (List.mem_cons_of_mem _ hx))
      (by simp at hf; omega)
    simp only [dumpMembers, dumpMember, List.cons_append, List.append_assoc, parseMembers,
      if_true, hk, hn, hrec]

theorem dumpMembers_length (j : List (Text × Int)) : j.length ≤ (dumpMembers j).length := by
  induction j with
  | nil => simp
  | cons e es ih =>
    cases es with
    | nil => simp [dumpMembers, dumpMember]
    | cons e2 es =>
      simp only [dumpMembers, List.length_append, List.length_cons] at ih ⊢
      omega

/-- Round trip of the bucket document. -/
theorem parseJson_dump (j : Json) (hc : Json.clean j) : parseJson (dump j) = some j := by
  cases j with
  | nil => simp [dump, dumpMembers, parseJson]
  | cons e es =>
    have hlen := dumpMembers_length (e :: es)
    have hm := parseMembers_dump es e (dumpMembers (e :: es) ++ [RBRACE]).length [] hc
      (by simp only [List.length_append, List.length_cons, List.length_nil] at hlen ⊢; omega)
    have hq : ∃ r, dumpMembers (e :: es) ++ [RBRACE] = QUOTE :: r := by
      cases es with
      | nil => exact ⟨_, rfl⟩
      | cons e2 es => exact ⟨_, rfl⟩
    obtain ⟨r, hr⟩ := hq
    have hne : QUOTE ≠ RBRACE := by decide
    simp only [dump, parseJson, if_true]
    rw [hr] at hm ⊢
    simp only [hne, if_false, hm]

theorem parseMembers_sound : ∀ (fuel : Nat) (s : Text) (m : Json) (r : Text),
    parseMembers fuel s = some (m, r) → Json.clean m := by
  intro fuel
  induction fuel with
  | zero => intro s m r h; simp [parseMembers] at h
  | succ f ih =>
    intro s m r h
    unfold parseMembers at h
    split at h
    · simp at h
    · rename_i q s0
      split at h
      · split at h
        · simp at h
        · rename_i k s1 hk
          have hck := parseKey_sound _ _ _ hk
          split at h
          · simp at h
          · rename_i col s2
            split at h
            · split at h
              · simp at h
              · rename_i v s3 hv
                split at h
                · simp at h
                · rename_i c3 s4
                  split at h
                  · split at h
                    · simp at h
                    · rename_i m2 r2 hm
                      simp only [Option.some.injEq, Prod.mk.injEq] at h
                      rw [← h.1]
                      intro e he
                      rcases List.mem_cons.mp he with he | he
                      · subst he; exact hck
                      · exact ih _ _ _ hm e he
                  · split at h
                    · simp only [Option.some.injEq, Prod.mk.injEq] at h
                      rw [← h.1]
                      intro e he
                      simp at he
                      subst he
                      exact hck
                    · simp at h
            · simp at h
      · simp at h

theorem parseJson_sound (s : Text) (j : Json) (h : parseJson s = some j) : Json.clean j := by
  unfold parseJson at h
  split at h
  · simp at h
  · split at h
    · split at h
      · simp at h
      · split at h
        · split at h
          · simp only [Option.some.injEq] at h
            rw [← h]
            intro e he
            simp at he
          · simp at h
        · split at h
          · rename_i m hm
            simp only [Option.some.injEq] at h
            rw [← h]
            exact parseMembers_sound _ _ _ _ hm
          · simp at h
    · simp at h

theorem parseJson_emptyDocument : parseJson emptyDocument = some [] := by decide

theorem bucketName_ne_logName (m : Nat) (k : Int) :
    String.mk (hash m k ++ ".json".toList) ≠ logName := by
  intro h
  have h2 := congrArg (fun s => s.data.getLast?) h
  simp [logName] at h2

theorem bucketPath_ne_log (t : PersistentHashTable) (k : Int) :
    bucketPathOf t k ≠ t.table_dir ++ [logName] := by
  intro h
  have := List.append_cancel_left h
  simp only [List.cons.injEq, and_true] at this
  exact bucketName_ne_logName _ _ this

theorem bucketPath_ne_dir (t : PersistentHashTable) (k : Int) :
    bucketPathOf t k ≠ t.table_dir := by
  intro h
  have := congrArg List.length h
  simp [bucketPathOf] at this

theorem log_ne_dir (dir : Path) : dir ++ [logName] ≠ dir := by
  intro h
  have := congrArg List.length h
  simp at this

theorem bucketPath_ne_nil (t : PersistentHashTable) (k : Int) : bucketPathOf t k ≠ [] := by
  simp [bucketPathOf]

theorem bucketPath_dropLast (t : PersistentHashTable) (k : Int) :
    (bucketPathOf t k).dropLast = t.table_dir := by
  simp [bucketPathOf]

theorem bucketPath_ne_log_file (t : PersistentHashTable) (k : Int) (ht : t.constructed) :
    bucketPathOf t k ≠ t.log_file := by
  rcases ht with h | h
  · rw [h]; exact bucketPath_ne_nil t k
  · rw [h]; exact bucketPath_ne_log t k

theorem getBucketPath_eq (t : PersistentHashTable) (fs : FS) (k : Int) :
    getBucketPath t fs k =
      (if fs (bucketPathOf t k) = none ∧ fs t.table_dir = some Node.dir
        then Function.update fs (bucketPathOf t k) (some (Node.file emptyDocument)) else fs,
       bucketPathOf t k) := by
  unfold getBucketPath pathExists writeFile canOpenForWrite
  rw [bucketPath_dropLast]
  cases h : fs (bucketPathOf t k) with
  | none =>
    by_cases hd : fs t.table_dir = some Node.dir
    · simp [hd]
    · simp [hd]
  | some n => simp

theorem getBucketPath_snd (t : PersistentHashTable) (fs : FS) (k : Int) :
    (getBucketPath t fs k).2 = bucketPathOf t k := by
  rw [getBucketPath_eq]

/-- Under the invariant the read in `getItem` and `setItem` delivers the bucket document. -/
theorem read_after_getBucketPath (t : PersistentHashTable) (fs : FS) (k : Int)
    (h : TableOK t fs) :
    (readFile (getBucketPath t fs k).1 (bucketPathOf t k)).bind parseJson
      = some (docOf fs (bucketPathOf t k)) := by
  obtain ⟨_, ⟨hdir, hent⟩, _⟩ := h
  rw [getBucketPath_eq]
  rcases hent (String.mk (hash t.bucket_mag k ++ ".json".toList)) with hn | ⟨c, hc, hj⟩
  · have hn2 : fs (bucketPathOf t k) = none := hn
    simp [hn2, hdir, readFile, docOf, parseJson_emptyDocument]
  · have hc2 : fs (bucketPathOf t k) = some (Node.file c) := hc
    obtain ⟨j, hj⟩ := hj (bucketName_ne_logName _ _)
    simp [hc2, readFile, docOf, hj]

theorem docOf_clean (fs : FS) (p : Path) : Json.clean (docOf fs p) := by
  unfold docOf
  cases h : (readFile fs p).bind parseJson with
  | none => intro e he; simp at he
  | some j =>
    obtain ⟨c, _, hc⟩ := Option.bind_eq_some.mp h
    exact parseJson_sound c j hc

theorem stored_eq (t : PersistentHashTable) (fs : FS) (k : Int) :
    stored t fs k = List.lookup (to_string k) (docOf fs (bucketPathOf t k)) := by
  unfold stored docOf
  cases (readFile fs (bucketPathOf t k)).bind parseJson with
  | none => simp [List.lookup]
  | some j => simp

theorem writeFile_file (fs : FS) (p : Path) (c x : Text) (h : fs p = some (Node.file c)) :
    writeFile fs p x = Function.update fs p (some (Node.file x)) := by
  simp [writeFile, canOpenForWrite, h]

theorem appendFile_file (fs : FS) (p : Path) (c x : Text) (h : fs p = some (Node.file c)) :
    appendFile fs p x = Function.update fs p (some (Node.file (c ++ x))) := by
  simp [appendFile, canOpenForWrite, readFile, h]

/-- The filesystem after the bucket step of `setItem`. -/
theorem bucket_write_eq (t : PersistentHashTable) (fs : FS) (k : Int) (x : Text)
    (h : TableOK t fs) :
    writeFile (getBucketPath t fs k).1 (bucketPathOf t k) x
      = Function.update fs (bucketPathOf t k) (some (Node.file x)) := by
  obtain ⟨_, ⟨hdir, hent⟩, _⟩ := h
  rw [getBucketPath_eq]
  rcases hent (String.mk (hash t.bucket_mag k ++ ".json".toList)) with hn | ⟨c, hc, _⟩
  · have hn2 : fs (bucketPathOf t k) = none := hn
    simp only [hn2, hdir, and_self, if_true]
    rw [writeFile_file _ _ emptyDocument _ (by simp), Function.update_idem]
  · have hc2 : fs (bucketPathOf t k) = some (Node.file c) := hc
    simp only [hc2, false_and, if_false, reduceCtorEq]
    rw [writeFile_file _ _ c _ hc2]

theorem setItem_eq (t : PersistentHashTable) (fs : FS) (k v : Int) (h : TableOK t fs) :
    setItem t fs k v =
      (log t (Function.update fs (bucketPathOf t k) (some (Node.file
        (dump (Json.assign (docOf fs (bucketPathOf t k)) (to_string k) v))))) k v,
       Except.ok ()) := by
  unfold setItem
  simp only [getBucketPath_snd, read_after_getBucketPath t fs k h, bucket_write_eq t fs k _ h]

/-- Writing a bucket document keeps the table in good order. -/
theorem TableOK_update_bucket (t : PersistentHashTable) (fs : FS) (k : Int) (x : Text)
    (j : Json) (hx : parseJson x = some j) (h : TableOK t fs) :
    TableOK t (Function.update fs (bucketPathOf t k) (some (Node.file x))) := by
  obtain ⟨hcon, ⟨hdir, hent⟩, hlog⟩ := h
  refine ⟨hcon, ⟨?_, ?_⟩, ?_⟩
  · rw [Function.update_noteq (bucketPath_ne_dir t k).symm]
    exact hdir
  · intro y
    by_cases hy : t.table_dir ++ [y] = bucketPathOf t k
    · right
      exact ⟨x, by rw [hy, Function.update_same], fun _ => ⟨j, hx⟩⟩
    · rw [Function.update_noteq hy]
      exact hent y
  · intro hl
    rw [Function.update_noteq (bucketPath_ne_log_file t k hcon).symm]
    exact hlog hl

theorem log_eq (t : PersistentHashTable) (fs : FS) (k v : Int) (c : Text)
    (hl : t.log_file ≠ []) (hc : fs t.log_file = some (Node.file c)) :
    log t fs k v = Function.update fs t.log_file (some (Node.file (c ++ logLine k v))) := by
  simp [log, hl, appendFile_file fs _ c _ hc]

theorem log_off (t : PersistentHashTable) (fs : FS) (k v : Int) (hl : t.log_file = []) :
    log t fs k v = fs := by
  simp [log, hl]

/-- Outside the log file `log` changes nothing. -/
theorem log_other (t : PersistentHashTable) (fs : FS) (k v : Int) (q : Path)
    (hq : q ≠ t.log_file) : log t fs k v q = fs q := by
  unfold log appendFile
  split
  · split
    · exact Function.update_noteq hq _ _
    · rfl
  · rfl

theorem TableOK_log (t : PersistentHashTable) (fs : FS) (k v : Int) (h : TableOK t fs) :
    TableOK t (log t fs k v) := by
  obtain ⟨hcon, ⟨hdir, hent⟩, hlog⟩ := h
  by_cases hl : t.log_file = []
  · rw [log_off t fs k v hl]
    exact ⟨hcon, ⟨hdir, hent⟩, hlog⟩
  · obtain ⟨c, hc⟩ := hlog hl
    have hlf : t.log_file = t.table_dir ++ [logName] := by
      rcases hcon with h1 | h1
      · exact absurd h1 hl
      · exact h1
    rw [log_eq t fs k v c hl hc]
    refine ⟨hcon, ⟨?_, ?_⟩, ?_⟩
    · rw [Function.update_noteq (by rw [hlf]; exact (log_ne_dir _).symm)]
      exact hdir
    · intro y
      by_cases hy : t.table_dir ++ [y] = t.log_file
      · right
        refine ⟨c ++ logLine k v, by rw [hy, Function.update_same], ?_⟩
        intro hne
        rw [hlf] at hy
        have := List.append_cancel_left hy
        simp only [List.cons.injEq, and_true] at this
        exact absurd this hne
      · rw [Function.update_noteq hy]
        exact hent y
    · intro _
      exact ⟨_, Function.update_same _ _ _⟩

theorem setItem_ok (t : PersistentHashTable) (fs : FS) (k v : Int) (h : TableOK t fs) :
    (setItem t fs k v).2 = Except.ok () := by
  rw [setItem_eq t fs k v h]

theorem TableOK_setItem (t : PersistentHashTable) (fs : FS) (k v : Int) (h : TableOK t fs) :
    TableOK t (setItem t fs k v).1 := by
  rw [setItem_eq t fs k v h]
  apply TableOK_log
  exact TableOK_update_bucket t fs k _ _
    (parseJson_dump _ (clean_assign _ _ _ (docOf_clean _ _) (to_string_cleanKey k))) h

theorem docOf_update_same (fs : FS) (p : Path) (j : Json) (hj : Json.clean j) :
    docOf (Function.update fs p (some (Node.file (dump j)))) p = j := by
  simp [docOf, readFile, parseJson_dump j hj]

theorem docOf_congr (fs fs2 : FS) (p : Path) (h : fs2 p = fs p) : docOf fs2 p = docOf fs p := by
  simp [docOf, readFile, h]

/-- What `setItem` stores: the written value under its key, every other key as before. -/
theorem stored_setItem (t : PersistentHashTable) (fs : FS) (k v k2 : Int) (h : TableOK t fs) :
    stored t (setItem t fs k v).1 k2 = if k2 = k then some v else stored t fs k2 := by
  have hcon := h.1
  rw [setItem_eq t fs k v h, stored_eq, stored_eq]
  have hclean := clean_assign (docOf fs (bucketPathOf t k)) (to_string k) v (docOf_clean _ _)
    (to_string_cleanKey k)
  by_cases hp : bucketPathOf t k2 = bucketPathOf t k
  · have hd : docOf (log t (Function.update fs (bucketPathOf t k) (some (Node.file
        (dump (Json.assign (docOf fs (bucketPathOf t k)) (to_string k) v))))) k v)
        (bucketPathOf t k2) = Json.assign (docOf fs (bucketPathOf t k)) (to_string k) v := by
      rw [docOf_congr _ _ _ (log_other t _ k v _ (bucketPath_ne_log_file t k2 hcon)), hp]
      exact docOf_update_same fs _ _ hclean
    rw [hd, hp]
    by_cases hk : k2 = k
    · rw [if_pos hk, hk]
      exact lookup_assign_same _ _ _
    · rw [if_neg hk]
      exact lookup_assign_other _ _ _ _ (fun e => hk (to_string_injective _ _ e))
  · have hk : k2 ≠ k := fun e => hp (by rw [e])
    rw [if_neg hk]
    congr 1
    apply docOf_congr
    dsimp only
    rw [log_other t _ k v _ (bucketPath_ne_log_file t k2 hcon)]
    exact Function.update_noteq hp _ _

/-- What `setItem` does to the log: one record more at its end. -/
theorem log_setItem (t : PersistentHashTable) (fs : FS) (k v : Int) (c : Text)
    (h : TableOK t fs) (hl : t.log_file ≠ []) (hc : readFile fs t.log_file = some c) :
    readFile (setItem t fs k v).1 t.log_file = some (c ++ logLine k v) := by
  have hcon := h.1
  rw [setItem_eq t fs k v h]
  have hc2 : fs t.log_file = some (Node.file c) := by
    unfold readFile at hc
    split at hc
    · rename_i c2 hc3
      simp only [Option.some.injEq] at hc
      rw [hc3, hc]
    · simp at hc
  rw [log_eq t _ k v c hl (by
    rw [Function.update_noteq (bucketPath_ne_log_file t k hcon).symm]; exact hc2)]
  simp [readFile]

/-- Outside the bucket file of the key and the log file `setItem` changes nothing. -/
theorem setItem_other (t : PersistentHashTable) (fs : FS) (k v : Int) (q : Path)
    (h : TableOK t fs) (hq : q ≠ bucketPathOf t k) (hl : q ≠ t.log_file) :
    (setItem t fs k v).1 q = fs q := by
  rw [setItem_eq t fs k v h]
  dsimp only
  rw [log_other t _ k v q hl]
  exact Function.update_noteq hq _ _

theorem getItem_fst (t : PersistentHashTable) (fs : FS) (k : Int) :
    (getItem t fs k).1 = (getBucketPath t fs k).1 := by
  unfold getItem
  simp only
  split
  · rfl
  · split <;> rfl

theorem getItem_snd (t : PersistentHashTable) (fs : FS) (k : Int) (h : TableOK t fs) :
    (getItem t fs k).2 = outcomeOf ((stored t fs k).map toInt32) := by
  unfold getItem
  simp only [getBucketPath_snd, read_after_getBucketPath t fs k h, stored_eq, Json.contains,
    Json.at]
  cases hl : List.lookup (to_string k) (docOf fs (bucketPathOf t k)) with
  | none => simp [outcomeOf]
  | some v => simp [outcomeOf]

theorem TableOK_getItem (t : PersistentHashTable) (fs : FS) (k : Int) (h : TableOK t fs) :
    TableOK t (getItem t fs k).1 := by
  rw [getItem_fst, getBucketPath_eq]
  simp only
  split
  · exact TableOK_update_bucket t fs k _ _ parseJson_emptyDocument h
  · exact h

theorem stored_getItem (t : PersistentHashTable) (fs : FS) (k k2 : Int) :
    stored t (getItem t fs k).1 k2 = stored t fs k2 := by
  rw [getItem_fst, getBucketPath_eq]
  simp only
  split
  · rename_i hc
    rw [stored_eq, stored_eq]
    by_cases hp : bucketPathOf t k2 = bucketPathOf t k
    · rw [hp]
      simp [docOf, readFile, hc.1, parseJson_emptyDocument]
    · rw [docOf_congr _ _ _ (Function.update_noteq hp _ _)]
  · rfl

/-- Outside the bucket file of the key `getItem` changes nothing. -/
theorem getItem_other (t : PersistentHashTable) (fs : FS) (k : Int) (q : Path)
    (hq : q ≠ bucketPathOf t k) : (getItem t fs k).1 q = fs q := by
  rw [getItem_fst, getBucketPath_eq]
  simp only
  split
  · exact Function.update_noteq hq _ _
  · rfl

theorem concat_not_below (dir : Path) (x : String) : ¬ (dir ++ [x]) <+: dir := by
  intro h
  have := h.length_le
  simp at this

theorem create_directories_eq (fs fs1 : FS) (p : Path)
    (h : create_directories fs p = some fs1) :
    fs1 = fun q => if q <+: p then some Node.dir else fs q := by
  unfold create_directories at h
  split at h
  · simp at h
  · simpa using h.symm

theorem create_directories_some (fs : FS) (p : Path)
    (h : ∀ q, q <+: p → Node.isFile (fs q) = false) :
    create_directories fs p = some (fun q => if q <+: p then some Node.dir else fs q) := by
  unfold create_directories
  rw [if_neg]
  simp only [List.any_eq_true, List.mem_inits, not_exists, not_and, Bool.not_eq_true]
  exact h

theorem create_directories_file (fs fs1 : FS) (p q : Path)
    (h : create_directories fs p = some fs1) (hq : q <+: p) : Node.isFile (fs q) = false := by
  unfold create_directories at h
  split at h
  · simp at h
  · rename_i hn
    simp only [List.any_eq_true, List.mem_inits, not_exists, not_and, Bool.not_eq_true] at hn
    exact hn q hq

/-- After `create_directories` the directory exists and its entries are as before. -/
theorem create_directories_dir (fs fs1 : FS) (dir : Path)
    (h : create_directories fs dir = some fs1) :
    fs1 dir = some Node.dir ∧ ∀ x : String, fs1 (dir ++ [x]) = fs (dir ++ [x]) := by
  rw [create_directories_eq fs fs1 dir h]
  exact ⟨by simp, fun x => by simp [concat_not_below]⟩

theorem ensureLog_other (fs : FS) (lf q : Path) (hq : q ≠ lf) : ensureLog fs lf q = fs q := by
  unfold ensureLog writeFile
  split
  · rfl
  · split
    · exact Function.update_noteq hq _ _
    · rfl

theorem ensureLog_log (fs : FS) (dir : Path) (hd : fs dir = some Node.dir) :
    ensureLog fs (dir ++ [logName]) (dir ++ [logName])
      = if fs (dir ++ [logName]) = none then some (Node.file []) else fs (dir ++ [logName]) := by
  unfold ensureLog pathExists writeFile canOpenForWrite
  cases h : fs (dir ++ [logName]) with
  | none => simp [hd]
  | some n => simp [h]

/-- A table made on a directory in good order is in good order. -/
theorem TableOK_ensureLog (fs : FS) (dir : Path) (m : Nat) (h : DirOK fs dir) :
    TableOK ⟨dir, m, dir ++ [logName]⟩ (ensureLog fs (dir ++ [logName])) := by
  obtain ⟨hdir, hent⟩ := h
  have hlog := ensureLog_log fs dir hdir
  refine ⟨Or.inr rfl, ⟨?_, ?_⟩, ?_⟩
  · rw [ensureLog_other _ _ _ (log_ne_dir dir).symm]
    exact hdir
  · intro x
    by_cases hx : x = logName
    · subst hx
      right
      rcases hent logName with hn | ⟨c, hc, _⟩
      · exact ⟨[], by rw [hlog, if_pos hn], fun hne => absurd rfl hne⟩
      · exact ⟨c, by rw [hlog, if_neg (by rw [hc]; simp), hc], fun hne => absurd rfl hne⟩
    · rw [ensureLog_other _ _ _ (by
        intro e; exact hx (by simpa using List.append_cancel_left e))]
      exact hent x
  · intro _
    show ∃ c, ensureLog fs (dir ++ [logName]) (dir ++ [logName]) = some (Node.file c)
    rcases hent logName with hn | ⟨c, hc, _⟩
    · exact ⟨[], by rw [hlog, if_pos hn]⟩
    · exact ⟨c, by rw [hlog, if_neg (by rw [hc]; simp), hc]⟩

theorem TableOK_nolog (fs : FS) (dir : Path) (m : Nat) (h : DirOK fs dir) :
    TableOK ⟨dir, m, []⟩ fs :=
  ⟨Or.inl rfl, h, fun hne => absurd rfl hne⟩

theorem DirOK_of_EmptyDir (fs : FS) (dir : Path) (h : EmptyDir fs dir) : DirOK fs dir :=
  ⟨h.1, fun x => Or.inl (h.2 x)⟩

theorem DirOK_create (fs fs1 : FS) (dir : Path) (h : create_directories fs dir = some fs1)
    (hent : ∀ x : String, fs (dir ++ [x]) = none ∨
      ∃ c, fs (dir ++ [x]) = some (Node.file c) ∧ (x ≠ logName → ∃ j, parseJson c = some j)) :
    DirOK fs1 dir := by
  obtain ⟨h1, h2⟩ := create_directories_dir fs fs1 dir h
  exact ⟨h1, fun x => by rw [h2 x]; exact hent x⟩

theorem prefix_concat_ne (dir : Path) (x : String) :
    dir <+: dir ++ [x] ∧ dir ++ [x] ≠ dir :=
  ⟨List.prefix_append _ _, fun e => by simpa using congrArg List.length e⟩

theorem EmptyDir_create (fs fs1 : FS) (dir : Path) (h : create_directories fs dir = some fs1)
    (hf : ∀ q, dir <+: q → q ≠ dir → fs q = none) : EmptyDir fs1 dir := by
  obtain ⟨h1, h2⟩ := create_directories_dir fs fs1 dir h
  exact ⟨h1, fun x => by
    rw [h2 x]; exact hf _ (prefix_concat_ne dir x).1 (prefix_concat_ne dir x).2⟩

/-- The result of the ordinary constructor in terms of the created directory. -/
theorem construct_eq (fs fs1 : FS) (dir : Path) (logging : Bool) (m : Nat)
    (t : PersistentHashTable) (h : construct fs dir logging m = (fs1, Except.ok t)) :
    ∃ fs0, create_directories fs dir = some fs0 ∧
      ((logging = true ∧ fs1 = ensureLog fs0 (dir ++ [logName]) ∧ t = ⟨dir, m, dir ++ [logName]⟩)
        ∨ (logging = false ∧ fs1 = fs0 ∧ t = ⟨dir, m, []⟩)) := by
  unfold construct at h
  cases hc : create_directories fs dir with
  | none => simp [hc] at h
  | some fs0 =>
    refine ⟨fs0, rfl, ?_⟩
    simp only [hc] at h
    cases logging with
    | true =>
      simp only [if_true, Prod.mk.injEq, Except.ok.injEq] at h
      exact Or.inl ⟨rfl, h.1.symm, h.2.symm⟩
    | false =>
      simp only [Bool.false_eq_true, if_false, Prod.mk.injEq, Except.ok.injEq] at h
      exact Or.inr ⟨rfl, h.1.symm, h.2.symm⟩

theorem TableOK_construct (fs fs1 : FS) (dir : Path) (logging : Bool) (m : Nat)
    (t : PersistentHashTable) (h : construct fs dir logging m = (fs1, Except.ok t))
    (hent : ∀ x : String, fs (dir ++ [x]) = none ∨
      ∃ c, fs (dir ++ [x]) = some (Node.file c) ∧ (x ≠ logName → ∃ j, parseJson c = some j)) :
    TableOK t fs1 := by
  obtain ⟨fs0, hc, h1 | h1⟩ := construct_eq fs fs1 dir logging m t h
  · obtain ⟨_, rfl, rfl⟩ := h1
    exact TableOK_ensureLog fs0 dir m (DirOK_create fs fs0 dir hc hent)
  · obtain ⟨_, rfl, rfl⟩ := h1
    exact TableOK_nolog fs1 dir m (DirOK_create fs fs1 dir hc hent)

theorem construct_table_dir (fs fs1 : FS) (dir : Path) (logging : Bool) (m : Nat)
    (t : PersistentHashTable) (h : construct fs dir logging m = (fs1, Except.ok t)) :
    t.table_dir = dir ∧ t.bucket_mag = m := by
  obtain ⟨fs0, hc, h1 | h1⟩ := construct_eq fs fs1 dir logging m t h
  · obtain ⟨_, _, rfl⟩ := h1; exact ⟨rfl, rfl⟩
  · obtain ⟨_, _, rfl⟩ := h1; exact ⟨rfl, rfl⟩

theorem TableOK_applySets (t : PersistentHashTable) (hist : List (Int × Int)) :
    ∀ fs, TableOK t fs → TableOK t (applySets t fs hist) := by
  induction hist with
  | nil => intro fs h; exact h
  | cons r rs ih => intro fs h; exact ih _ (TableOK_setItem t fs r.1 r.2 h)

theorem applySets_cons (t : PersistentHashTable) (fs : FS) (r : Int × Int)
    (rs : List (Int × Int)) :
    applySets t fs (r :: rs) = applySets t (setItem t fs r.1 r.2).1 rs := rfl

theorem applySets_append (t : PersistentHashTable) (fs : FS) (a b : List (Int × Int)) :
    applySets t fs (a ++ b) = applySets t (applySets t fs a) b := by
  simp [applySets, List.foldl_append]

/-- After a sequence of writes a key holds its last written value, or what it held before. -/
theorem stored_applySets (t : PersistentHashTable) (hist : List (Int × Int)) (k : Int) :
    ∀ fs, TableOK t fs → stored t (applySets t fs hist) k
      = match lastWrite hist k with
        | some w => some w
        | none => stored t fs k := by
  induction hist with
  | nil => intro fs _; rfl
  | cons r rs ih =>
    intro fs h
    obtain ⟨k1, v1⟩ := r
    rw [applySets_cons, ih _ (TableOK_setItem t fs _ _ h), stored_setItem t fs _ _ k h]
    simp only [lastWrite]
    cases lastWrite rs k with
    | some w => rfl
    | none =>
      by_cases hk : k1 = k
      · simp [hk]
      · simp [hk, Ne.symm hk]

theorem log_applySets (t : PersistentHashTable) (hist : List (Int × Int))
    (hl : t.log_file ≠ []) :
    ∀ fs c, TableOK t fs → readFile fs t.log_file = some c →
      readFile (applySets t fs hist) t.log_file
        = some (c ++ hist.flatMap (fun r => logLine r.1 r.2)) := by
  induction hist with
  | nil => intro fs c _ hc; simpa [applySets] using hc
  | cons r rs ih =>
    intro fs c h hc
    rw [applySets_cons, ih _ _ (TableOK_setItem t fs _ _ h) (log_setItem t fs _ _ c h hl hc)]
    simp

theorem under_dir_of_eq_bucket (t : PersistentHashTable) (k : Int) :
    t.table_dir <+: bucketPathOf t k := List.prefix_append _ _

/-- Outside the table directory `setItem` changes nothing. -/
theorem setItem_outside (t : PersistentHashTable) (fs : FS) (k v : Int) (q : Path)
    (h : TableOK t fs) (hq : ¬ t.table_dir <+: q) : (setItem t fs k v).1 q = fs q := by
  have hb : q ≠ bucketPathOf t k := fun e => hq (by rw [e]; exact List.prefix_append _ _)
  rcases h.1 with hl | hl
  · rw [setItem_eq t fs k v h]
    dsimp only
    rw [log_off t _ k v hl]
    exact Function.update_noteq hb _ _
  · exact setItem_other t fs k v q h hb (fun e => hq (by
      rw [e, hl]; exact List.prefix_append _ _))

theorem applySets_outside (t : PersistentHashTable) (hist : List (Int × Int)) (q : Path)
    (hq : ¬ t.table_dir <+: q) :
    ∀ fs, TableOK t fs → applySets t fs hist q = fs q := by
  induction hist with
  | nil => intro fs _; rfl
  | cons r rs ih =>
    intro fs h
    rw [applySets_cons, ih _ (TableOK_setItem t fs _ _ h), setItem_outside t fs _ _ q h hq]

theorem TableOK_applyCall (t : PersistentHashTable) (fs : FS) (c : Call) (h : TableOK t fs) :
    TableOK t (applyCall t fs c) := by
  cases c with
  | get k => exact TableOK_getItem t fs k h
  | set k v => exact TableOK_setItem t fs k v h

theorem TableOK_applyCalls (t : PersistentHashTable) (calls : List Call) :
    ∀ fs, TableOK t fs → TableOK t (applyCalls t fs calls) := by
  induction calls with
  | nil => intro fs h; exact h
  | cons c cs ih => intro fs h; exact ih _ (TableOK_applyCall t fs c h)

theorem applyCalls_cons (t : PersistentHashTable) (fs : FS) (c : Call) (cs : List Call) :
    applyCalls t fs (c :: cs) = applyCalls t (applyCall t fs c) cs := rfl

theorem stored_applyCalls (t : PersistentHashTable) (calls : List Call) (k : Int) :
    ∀ fs, TableOK t fs → stored t (applyCalls t fs calls) k
      = match lastWrite (writesOf calls) k with
        | some w => some w
        | none => stored t fs k := by
  induction calls with
  | nil => intro fs _; rfl
  | cons c cs ih =>
    intro fs h
    rw [applyCalls_cons, ih _ (TableOK_applyCall t fs c h)]
    cases c with
    | get k1 =>
      simp only [applyCall, writesOf, stored_getItem]
    | set k1 v1 =>
      simp only [applyCall, writesOf, lastWrite, stored_setItem t fs _ _ k h]
      cases lastWrite (writesOf cs) k with
      | some w => rfl
      | none =>
        by_cases hk : k1 = k
        · simp [hk]
        · simp [hk, Ne.symm hk]

theorem lastWrite_isInt32 (hist : List (Int × Int)) (k w : Int)
    (hh : ∀ r ∈ hist, isInt32 r.1 ∧ isInt32 r.2) (h : lastWrite hist k = some w) :
    isInt32 w := by
  induction hist with
  | nil => simp [lastWrite] at h
  | cons r rs ih =>
    obtain ⟨k1, v1⟩ := r
    simp only [lastWrite] at h
    cases hl : lastWrite rs k with
    | some w2 =>
      rw [hl] at h
      simp only [Option.some.injEq] at h
      subst h
      exact ih (fun r hr => hh r (List.mem_cons_of_mem _ hr)) hl
    | none =>
      rw [hl] at h
      by_cases hk : k1 = k
      · simp only [hk, if_true, Option.some.injEq] at h
        subst h
        exact (hh (k1, v1) (List.mem_cons_self _ _)).2
      · simp [hk] at h

theorem toInt32_of_isInt32 (v : Int) (h : isInt32 v) : toInt32 v = v := by
  unfold isInt32 INT_MIN INT_MAX at h
  unfold toInt32
  omega

theorem lastWrite_none (hist : List (Int × Int)) (k : Int) (h : ∀ r ∈ hist, r.1 ≠ k) :
    lastWrite hist k = none := by
  induction hist with
  | nil => rfl
  | cons r rs ih =>
    obtain ⟨k1, v1⟩ := r
    have h1 : k1 ≠ k := h (k1, v1) (List.mem_cons_self _ _)
    simp [lastWrite, ih (fun r hr => h r (List.mem_cons_of_mem _ hr)), h1]

theorem lastWrite_append_last (a b : List (Int × Int)) (k v : Int) (h : ∀ r ∈ b, r.1 ≠ k) :
    lastWrite (a ++ (k, v) :: b) k = some v := by
  induction a with
  | nil => simp [lastWrite, lastWrite_none b k h]
  | cons r rs ih =>
    obtain ⟨k1, v1⟩ := r
    simp [lastWrite, ih]

theorem replay_eq (t : PersistentHashTable) (lines : List Text) :
    ∀ fs, TableOK t fs → replay t fs lines
      = (applySets t fs (recordsOf lines),
          if allParse lines then Except.ok t else Except.error Error.InvalidLogFormat) := by
  induction lines with
  | nil => intro fs _; rfl
  | cons l ls ih =>
    intro fs h
    cases hp : parseLine l with
    | none => simp [replay, recordsOf, allParse, hp, applySets]
    | some r =>
      obtain ⟨k, v⟩ := r
      have hs := setItem_eq t fs k v h
      have ht := TableOK_setItem t fs k v h
      rw [hs] at ht
      simp only [replay, hp, hs, recordsOf, applySets_cons]
      rw [ih _ ht]
      simp [allParse, hp]

/-- Nothing exists under a missing path. -/
theorem wellFormed_under (fs : FS) (hw : fs.wellFormed) (p : Path) (hp : fs p = none) :
    ∀ s : Path, s ≠ [] → fs (p ++ s) = none := by
  intro s
  induction s using List.reverseRecOn with
  | nil => intro h; exact absurd rfl h
  | append_singleton l a ih =>
    intro _
    by_contra hne
    have hd := hw (p ++ l) a (by rwa [List.append_assoc])
    by_cases hl : l = []
    · subst hl
      rw [List.append_nil, hp] at hd
      simp at hd
    · rw [ih hl] at hd
      simp at hd

theorem wiped_under (fs : FS) (hw : fs.wellFormed) (dir q : Path) (hq : dir <+: q)
    (hne : q ≠ dir) : (if pathExists fs dir then remove_all fs dir else fs) q = none := by
  by_cases he : pathExists fs dir = true
  · simp [he, remove_all, hq]
  · simp only [he, Bool.false_eq_true, if_false]
    obtain ⟨s, rfl⟩ := hq
    have hnone : fs dir = none := by
      simpa [pathExists] using he
    exact wellFormed_under fs hw dir hnone s (fun e => hne (by simp [e]))

theorem wiped_outside (fs : FS) (dir q : Path) (hq : ¬ dir <+: q) :
    (if pathExists fs dir then remove_all fs dir else fs) q = fs q := by
  by_cases he : pathExists fs dir = true
  · simp [he, remove_all, hq]
  · simp [he]

theorem recoverStart_eq (fs fs3 : FS) (dir : Path) (h : recoverStart fs dir = some fs3) :
    ∃ fs2, create_directories (if pathExists fs dir then remove_all fs dir else fs) dir
        = some fs2 ∧ fs3 = ensureLog fs2 (dir ++ [logName]) := by
  unfold recoverStart at h
  obtain ⟨fs2, h2, h3⟩ := Option.map_eq_some'.mp h
  exact ⟨fs2, h2, h3.symm⟩

theorem recover_eq (fs : FS) (lp dir : Path) (m : Nat) (h : pathExists fs lp = true) :
    recover fs lp dir m =
      match recoverStart fs dir with
      | none => (if pathExists fs dir then remove_all fs dir else fs,
          Except.error Error.FilesystemError)
      | some fs3 => replay ⟨dir, m, dir ++ [logName]⟩ fs3 (linesOf fs3 lp) := by
  unfold recover recoverStart
  simp only [h, Bool.not_true, Bool.false_eq_true, if_false]
  cases create_directories (if pathExists fs dir then remove_all fs dir else fs) dir with
  | none => rfl
  | some fs2 => rfl

/-- The state at the start of the replay loop: an empty table directory with an empty log. -/
theorem recoverStart_fresh (fs fs3 : FS) (dir : Path) (m : Nat) (hw : fs.wellFormed)
    (h : recoverStart fs dir = some fs3) :
    TableOK ⟨dir, m, dir ++ [logName]⟩ fs3 ∧
      readFile fs3 (dir ++ [logName]) = some [] ∧
      (∀ x : String, x ≠ logName → fs3 (dir ++ [x]) = none) ∧
      (∀ q, dir <+: q → q ≠ dir ++ [logName] → readFile fs3 q = none) := by
  obtain ⟨fs2, h2, rfl⟩ := recoverStart_eq fs fs3 dir h
  have hemp : EmptyDir fs2 dir :=
    EmptyDir_create _ fs2 dir h2 (fun q hq hne => wiped_under fs hw dir q hq hne)
  have hlog := ensureLog_log fs2 dir hemp.1
  rw [if_pos (hemp.2 logName)] at hlog
  refine ⟨TableOK_ensureLog fs2 dir m (DirOK_of_EmptyDir fs2 dir hemp), ?_, ?_, ?_⟩
  · simp [readFile, hlog]
  · intro x hx
    rw [ensureLog_other _ _ _ (by
      intro e; exact hx (by simpa using List.append_cancel_left e))]
    exact hemp.2 x
  · intro q hq hne
    rw [readFile, ensureLog_other _ _ _ hne, create_directories_eq _ fs2 dir h2]
    by_cases hqd : q <+: dir
    · simp [hqd]
    · have hne2 : q ≠ dir := fun e => hqd (by rw [e])
      simp [hqd, wiped_under fs hw dir q hq hne2]

/-- Outside the table directory the start of the replay loop left every file as it was. -/
theorem recoverStart_outside (fs fs3 : FS) (dir q : Path)
    (h : recoverStart fs dir = some fs3) (hq : ¬ dir <+: q) :
    readFile fs3 q = readFile fs q ∧ (¬ q <+: dir → fs3 q = fs q) := by
  obtain ⟨fs2, h2, rfl⟩ := recoverStart_eq fs fs3 dir h
  have hne : q ≠ dir ++ [logName] := fun e => hq (by rw [e]; exact List.prefix_append _ _)
  constructor
  · rw [readFile, readFile, ensureLog_other _ _ _ hne, create_directories_eq _ fs2 dir h2]
    by_cases hqd : q <+: dir
    · have hf := create_directories_file _ fs2 dir q h2 hqd
      rw [wiped_outside fs dir q hq] at hf
      simp only [hqd, if_true]
      cases hfs : fs q with
      | none => rfl
      | some n =>
        cases n with
        | dir => rfl
        | file c => simp [hfs, Node.isFile] at hf
    · simp [hqd, wiped_outside fs dir q hq]
  · intro hqd
    rw [ensureLog_other _ _ _ hne, create_directories_eq _ fs2 dir h2]
    simp [hqd, wiped_outside fs dir q hq]

theorem stored_none_of_absent (t : PersistentHashTable) (fs : FS) (k : Int)
    (h : fs (bucketPathOf t k) = none) : stored t fs k = none := by
  simp [stored, readFile, h]

theorem recover_ok (fs fs1 : FS) (lp dir : Path) (m : Nat) (t : PersistentHashTable)
    (hw : fs.wellFormed) (h : recover fs lp dir m = (fs1, Except.ok t)) :
    ∃ fs3, recoverStart fs dir = some fs3 ∧ pathExists fs lp = true ∧
      t = ⟨dir, m, dir ++ [logName]⟩ ∧ allParse (linesOf fs3 lp) = true ∧
      fs1 = applySets t fs3 (recordsOf (linesOf fs3 lp)) := by
  have he : pathExists fs lp = true := by
    by_contra hne
    simp [recover, hne] at h
  rw [recover_eq fs lp dir m he] at h
  cases hs : recoverStart fs dir with
  | none => simp [hs] at h
  | some fs3 =>
    refine ⟨fs3, rfl, he, ?_⟩
    simp only [hs] at h
    rw [replay_eq _ _ _ (recoverStart_fresh fs fs3 dir m hw hs).1] at h
    simp only [Prod.mk.injEq] at h
    obtain ⟨h1, h2⟩ := h
    by_cases hp : allParse (linesOf fs3 lp) = true
    · simp only [hp, if_true, Except.ok.injEq] at h2
      subst h2
      exact ⟨rfl, hp, h1.symm⟩
    · simp [hp] at h2

theorem Fresh_entries (fs : FS) (dir : Path) (h : Fresh fs dir) (x : String) :
    fs (dir ++ [x]) = none :=
  h.2 _ (prefix_concat_ne dir x).1 (prefix_concat_ne dir x).2

theorem TableOK_construct_fresh (fs fs1 : FS) (dir : Path) (logging : Bool) (m : Nat)
    (t : PersistentHashTable) (hf : Fresh fs dir)
    (h : construct fs dir logging m = (fs1, Except.ok t)) : TableOK t fs1 :=
  TableOK_construct fs fs1 dir logging m t h (fun x => Or.inl (Fresh_entries fs dir hf x))

/-- Every reachable state is in good order. -/
theorem Reachable_TableOK (t : PersistentHashTable) (fs : FS) (h : Reachable t fs) :
    TableOK t fs := by
  induction h with
  | construct fs dir logging m t fs1 hf _ hc => exact TableOK_construct_fresh fs fs1 dir logging m t hf hc
  | recover fs lp dir m t fs1 hw _ hc =>
    obtain ⟨fs3, hs, _, ht, _, hfs⟩ := recover_ok fs fs1 lp dir m t hw hc
    rw [hfs]
    apply TableOK_applySets
    rw [ht]
    exact (recoverStart_fresh fs fs3 dir m hw hs).1
  | reopen t0 fs logging m t fs1 _ _ hc ih =>
    exact TableOK_construct fs fs1 t0.table_dir logging m t hc ih.2.1.2
  | getItem t fs key _ _ ih => exact TableOK_getItem t fs key ih
  | setItem t fs key value _ _ _ ih => exact TableOK_setItem t fs key value ih

/-! ### Well-formed filesystems stay well-formed -/

theorem wellFormed_emptyFS : emptyFS.wellFormed := by
  intro p x h
  simp [emptyFS] at h

theorem wellFormed_update_file (fs : FS) (hw : fs.wellFormed) (p : Path) (c : Text)
    (hp : (∃ c0, fs p = some (Node.file c0)) ∨ (fs p = none ∧ fs p.dropLast = some Node.dir ∧ p ≠ [])) :
    FS.wellFormed (Function.update fs p (some (Node.file c))) := by
  intro q x hq
  have hqp : q ≠ p := by
    intro e
    subst e
    by_cases hx : q ++ [x] = q
    · simpa using congrArg List.length hx
    · rw [Function.update_noteq hx] at hq
      have := hw q x hq
      rcases hp with ⟨c0, h0⟩ | ⟨h0, _, _⟩
      · rw [h0] at this; simp at this
      · rw [h0] at this; simp at this
  rw [Function.update_noteq hqp]
  by_cases hx : q ++ [x] = p
  · rcases hp with ⟨c0, h0⟩ | ⟨_, h1, _⟩
    · exact hw q x (by rw [hx, h0]; simp)
    · rw [← hx] at h1
      simpa using h1
  · rw [Function.update_noteq hx] at hq
    exact hw q x hq

theorem wellFormed_writeFile (fs : FS) (hw : fs.wellFormed) (p : Path) (c : Text) :
    FS.wellFormed (writeFile fs p c) := by
  unfold writeFile
  split
  · rename_i hc
    apply wellFormed_update_file fs hw
    unfold canOpenForWrite at hc
    split at hc
    · rename_i c0 h0
      exact Or.inl ⟨c0, h0⟩
    · simp at hc
    · rename_i h0
      right
      refine ⟨h0, by simpa using hc, ?_⟩
      intro e
      subst e
      simp only [List.dropLast_nil, decide_eq_true_eq] at hc
      rw [h0] at hc
      simp at hc
  · exact hw

theorem wellFormed_appendFile (fs : FS) (hw : fs.wellFormed) (p : Path) (c : Text) :
    FS.wellFormed (appendFile fs p c) := by
  unfold appendFile
  split
  · rename_i hc
    apply wellFormed_update_file fs hw
    unfold canOpenForWrite at hc
    split at hc
    · rename_i c0 h0
      exact Or.inl ⟨c0, h0⟩
    · simp at hc
    · rename_i h0
      right
      refine ⟨h0, by simpa using hc, ?_⟩
      intro e
      subst e
      simp only [List.dropLast_nil, decide_eq_true_eq] at hc
      rw [h0] at hc
      simp at hc
  · exact hw

theorem wellFormed_remove_all (fs : FS) (hw : fs.wellFormed) (p : Path) :
    FS.wellFormed (remove_all fs p) := by
  intro q x hq
  unfold remove_all at hq ⊢
  by_cases h1 : p <+: q ++ [x]
  · simp [h1] at hq
  · have h2 : ¬ p <+: q := fun h => h1 (h.trans (List.prefix_append _ _))
    simp only [h1, h2, if_false] at hq ⊢
    exact hw q x hq

theorem wellFormed_create_directories (fs fs1 : FS) (hw : fs.wellFormed) (p : Path)
    (h : create_directories fs p = some fs1) : fs1.wellFormed := by
  rw [create_directories_eq fs fs1 p h]
  intro q x hq
  dsimp only at hq ⊢
  by_cases h1 : q ++ [x] <+: p
  · have h2 : q <+: p := (List.prefix_append _ _).trans h1
    simp [h2]
  · simp only [h1, if_false] at hq
    have := hw q x hq
    by_cases h2 : q <+: p
    · simp [h2]
    · simp [h2, this]

theorem wellFormed_ensureLog (fs : FS) (hw : fs.wellFormed) (p : Path) :
    FS.wellFormed (ensureLog fs p) := by
  unfold ensureLog
  split
  · exact hw
  · exact wellFormed_writeFile fs hw p []

theorem wellFormed_construct (fs : FS) (hw : fs.wellFormed) (dir : Path) (logging : Bool)
    (m : Nat) : FS.wellFormed (construct fs dir logging m).1 := by
  unfold construct
  cases hc : create_directories fs dir with
  | none => exact hw
  | some fs0 =>
    have h0 := wellFormed_create_directories fs fs0 hw dir hc
    cases logging with
    | true => exact wellFormed_ensureLog fs0 h0 _
    | false => exact h0

theorem wellFormed_getBucketPath (t : PersistentHashTable) (fs : FS) (hw : fs.wellFormed)
    (k : Int) : FS.wellFormed (getBucketPath t fs k).1 := by
  unfold getBucketPath
  split
  · exact hw
  · exact wellFormed_writeFile fs hw _ _

theorem wellFormed_getItem (t : PersistentHashTable) (fs : FS) (hw : fs.wellFormed)
    (k : Int) : FS.wellFormed (getItem t fs k).1 := by
  rw [getItem_fst]
  exact wellFormed_getBucketPath t fs hw k

theorem wellFormed_log (t : PersistentHashTable) (fs : FS) (hw : fs.wellFormed)
    (k v : Int) : FS.wellFormed (log t fs k v) := by
  unfold log
  split
  · exact wellFormed_appendFile fs hw _ _
  · exact hw

theorem wellFormed_setItem (t : PersistentHashTable) (fs : FS) (hw : fs.wellFormed)
    (k v : Int) : FS.wellFormed (setItem t fs k v).1 := by
  unfold setItem
  dsimp only
  split
  · exact wellFormed_getBucketPath t fs hw k
  · exact wellFormed_log t _ (wellFormed_writeFile _ (wellFormed_getBucketPath t fs hw k) _ _) k v

theorem wellFormed_applySets (t : PersistentHashTable) (hist : List (Int × Int)) :
    ∀ fs : FS, fs.wellFormed → FS.wellFormed (applySets t fs hist) := by
  induction hist with
  | nil => intro fs h; exact h
  | cons r rs ih => intro fs h; exact ih _ (wellFormed_setItem t fs h r.1 r.2)

theorem Fresh_emptyFS (x : String) : Fresh emptyFS [x] := by
  constructor
  · left; simp [emptyFS]
  · intro q hq _
    obtain ⟨s, rfl⟩ := hq
    simp [emptyFS]

theorem demo_construct : construct emptyFS ["t"] true 2 = (demoFS, Except.ok demoTable) :=
  Prod.ext rfl (by decide!)

theorem demo_reachable : Reachable demoTable demoFS :=
  Reachable.construct emptyFS ["t"] true 2 demoTable demoFS (Fresh_emptyFS "t")
    (by decide) demo_construct

/-- C1 (round trip): in every state of a table reached through the interface (magnitude
1 to 7, logging on or off), `setItem(k, v)` on a 32-bit key and value returns, and the
`getItem(k)` that follows returns v. -/
theorem c1_set_then_get (t : PersistentHashTable) (fs : FS) (k v : Int)
    (hr : Reachable t fs) (_hk : isInt32 k) (hv : isInt32 v) :
    (setItem t fs k v).2 = Except.ok () ∧
      (getItem t (setItem t fs k v).1 k).2 = Except.ok v := by
  have h := Reachable_TableOK t fs hr
  refine ⟨setItem_ok t fs k v h, ?_⟩
  rw [getItem_snd t _ k (TableOK_setItem t fs k v h), stored_setItem t fs k v k h]
  simp [outcomeOf, toInt32_of_isInt32 v hv]

/-- Witness of C1 on the example table, with a negative key. -/
theorem c1_set_then_get_witness :
    (setItem demoTable demoFS (-7) 100).2 = Except.ok () ∧
      (getItem demoTable (setItem demoTable demoFS (-7) 100).1 (-7)).2 = Except.ok 100 :=
  c1_set_then_get demoTable demoFS (-7) 100 demo_reachable (by decide) (by decide)

/-- C3 (overwrite): after `setItem(k, v1)`, any further writes, `setItem(k, v2)` and then
any writes to keys other than k, `getItem(k)` returns v2. -/
theorem c3_last_write_wins (t : PersistentHashTable) (fs : FS) (k v1 v2 : Int)
    (between after : List (Int × Int)) (hr : Reachable t fs) (hv : isInt32 v2)
    (ha : ∀ r ∈ after, r.1 ≠ k) :
    (getItem t (applySets t fs ((k, v1) :: between ++ (k, v2) :: after)) k).2
      = Except.ok v2 := by
  have h := Reachable_TableOK t fs hr
  have e : (k, v1) :: between ++ (k, v2) :: after = ((k, v1) :: between) ++ (k, v2) :: after :=
    rfl
  rw [getItem_snd t _ k (TableOK_applySets t _ fs h), stored_applySets t _ k fs h, e,
    lastWrite_append_last _ after k v2 ha]
  simp [outcomeOf, toInt32_of_isInt32 v2 hv]

/-- Witness of C3: key 5 written twice, with a write to key 261 of the same shard in between
and a write to key 21 of another shard afterwards. -/
theorem c3_last_write_wins_witness :
    (getItem demoTable
      (applySets demoTable demoFS ((5, 1) :: [(261, 9)] ++ (5, 2) :: [(21, 3)])) 5).2
      = Except.ok 2 :=
  c3_last_write_wins demoTable demoFS 5 1 2 [(261, 9)] [(21, 3)] demo_reachable (by decide)
    (by decide)

theorem stored_construct_fresh (fs fs1 : FS) (dir : Path) (logging : Bool) (m : Nat)
    (t : PersistentHashTable) (hf : Fresh fs dir)
    (h : construct fs dir logging m = (fs1, Except.ok t)) (k : Int) :
    stored t fs1 k = none := by
  apply stored_none_of_absent
  obtain ⟨fs0, hc, h1 | h1⟩ := construct_eq fs fs1 dir logging m t h
  · obtain ⟨_, rfl, rfl⟩ := h1
    rw [ensureLog_other _ _ _ (bucketPath_ne_log ⟨dir, m, dir ++ [logName]⟩ k)]
    exact ((create_directories_dir fs fs0 dir hc).2 _).trans (Fresh_entries fs dir hf _)
  · obtain ⟨_, rfl, rfl⟩ := h1
    exact ((create_directories_dir fs fs1 dir hc).2 _).trans (Fresh_entries fs dir hf _)

/-- C4 (missing key): on a table constructed on a fresh directory, after any calls of
`getItem` and `setItem` none of which writes the key k, `getItem(k)` fails with
key-not-found. -/
theorem c4_missing_key (fs fs1 : FS) (dir : Path) (logging : Bool) (m : Nat)
    (t : PersistentHashTable) (calls : List Call) (k : Int) (hf : Fresh fs dir)
    (hc : construct fs dir logging m = (fs1, Except.ok t))
    (hk : ∀ r ∈ writesOf calls, r.1 ≠ k) :
    (getItem t (applyCalls t fs1 calls) k).2 = Except.error Error.KeyNotFound := by
  have h := TableOK_construct_fresh fs fs1 dir logging m t hf hc
  rw [getItem_snd t _ k (TableOK_applyCalls t calls fs1 h), stored_applyCalls t calls k fs1 h,
    lastWrite_none _ k hk]
  simp [stored_construct_fresh fs fs1 dir logging m t hf hc k, outcomeOf]

/-- Witness of C4: key 261 is never written, key 5 of the same shard is. -/
theorem c4_missing_key_witness :
    (getItem demoTable (applyCalls demoTable demoFS [Call.set 5 100, Call.get 261]) 261).2
      = Except.error Error.KeyNotFound :=
  c4_missing_key emptyFS demoFS ["t"] true 2 demoTable [Call.set 5 100, Call.get 261] 261
    (Fresh_emptyFS "t") demo_construct (by decide)

theorem log_construct_fresh (fs fs1 : FS) (dir : Path) (m : Nat) (t : PersistentHashTable)
    (hf : Fresh fs dir) (h : construct fs dir true m = (fs1, Except.ok t)) :
    t.log_file = dir ++ [logName] ∧ readFile fs1 (dir ++ [logName]) = some [] := by
  obtain ⟨fs0, hc, h1 | h1⟩ := construct_eq fs fs1 dir true m t h
  · obtain ⟨_, rfl, rfl⟩ := h1
    obtain ⟨hd, he⟩ := create_directories_dir fs fs0 dir hc
    refine ⟨rfl, ?_⟩
    rw [readFile, ensureLog_log fs0 dir hd, if_pos (by rw [he]; exact Fresh_entries fs dir hf _)]
  · simp at h1

/-- C6 (log contents): with logging on, in every reachable state the log is a regular file
and `setItem(k, v)` returns and leaves the log as it was with the one line `k,v` and a
newline appended; after the calls of a history on a table constructed on a fresh directory
the log holds exactly the lines of the history in call order; in the example scenario the
log is the two lines `5,100` and `21,200`. -/
theorem c6_log_contents (t : PersistentHashTable) (fs : FS) (k v : Int)
    (hr : Reachable t fs) (hl : t.log_file ≠ [])
    (fs0 fs1 : FS) (dir : Path) (m : Nat) (t0 : PersistentHashTable)
    (hist : List (Int × Int)) (hf : Fresh fs0 dir)
    (hc : construct fs0 dir true m = (fs1, Except.ok t0)) :
    (∃ c, readFile fs (getLogFile t) = some c ∧ (setItem t fs k v).2 = Except.ok () ∧
      readFile (setItem t fs k v).1 (getLogFile t)
        = some (c ++ (to_string k ++ ',' :: (to_string v ++ [Char.ofNat 10])))) ∧
    readFile (applySets t0 fs1 hist) (getLogFile t0)
      = some (hist.flatMap (fun r => to_string r.1 ++ ',' :: (to_string r.2 ++ [Char.ofNat 10])))
    ∧ readFile (applySets demoTable demoFS demoHistory) (getLogFile demoTable)
      = some "5,100\n21,200\n".toList := by
  have h := Reachable_TableOK t fs hr
  refine ⟨?_, ?_, by decide!⟩
  · obtain ⟨c, hc⟩ := h.2.2 hl
    have hrd : readFile fs t.log_file = some c := by simp [readFile, hc]
    exact ⟨c, hrd, setItem_ok t fs k v h, log_setItem t fs k v c h hl hrd⟩
  · have h0 := TableOK_construct_fresh fs0 fs1 dir true m t0 hf hc
    obtain ⟨hlf, hrd⟩ := log_construct_fresh fs0 fs1 dir m t0 hf hc
    have hne : t0.log_file ≠ [] := by rw [hlf]; simp
    rw [← hlf] at hrd
    have := log_applySets t0 hist hne fs1 [] h0 hrd
    simpa [getLogFile, logLine] using this

/-- Witness of C6 on the example table. -/
theorem c6_log_contents_witness :
    readFile (setItem demoTable demoFS 5 100).1 (getLogFile demoTable)
      = some "5,100\n".toList := by
  obtain ⟨⟨c, h1, _, h3⟩, _, _⟩ := c6_log_contents demoTable demoFS 5 100 demo_reachable
    (by decide) emptyFS demoFS ["t"] 2 demoTable demoHistory (Fresh_emptyFS "t") demo_construct
  have hc : readFile demoFS (getLogFile demoTable) = some [] := by decide!
  rw [hc] at h1
  simp only [Option.some.injEq] at h1
  subst h1
  rw [h3]
  decide!

/-- C7 (missing log): when nothing exists at `log_path`, the recovery constructor fails with
log-not-found and returns the filesystem it was given, unchanged. -/
theorem c7_missing_log (fs : FS) (log_path dir : Path) (m : Nat)
    (h : pathExists fs log_path = false) :
    recover fs log_path dir m = (fs, Except.error Error.LogNotFound) := by
  simp [recover, h]

/-- Witness of C7: the target directory is the existing directory of the example table. -/
theorem c7_missing_log_witness :
    recover demoFS ["nolog.txt"] ["t"] 3 = (demoFS, Except.error Error.LogNotFound) :=
  c7_missing_log demoFS ["nolog.txt"] ["t"] 3 (by decide!)

theorem getItem_snd_eq (t : PersistentHashTable) (fs : FS) (k : Int) :
    (getItem t fs k).2 =
      match (readFile (getBucketPath t fs k).1 (bucketPathOf t k)).bind parseJson with
      | none => Except.error Error.CorruptBucket
      | some bucket =>
        if Json.contains bucket (to_string k) then
          Except.ok (toInt32 (Json.at bucket (to_string k)))
        else Except.error Error.KeyNotFound := by
  unfold getItem
  simp only [getBucketPath_snd]
  cases (readFile (getBucketPath t fs k).1 (bucketPathOf t k)).bind parseJson with
  | none => rfl
  | some b =>
    dsimp only
    split <;> rfl

/-- A read of a key finds the same document whether or not another read came before. -/
theorem read_after_getItem (t : PersistentHashTable) (fs : FS) (k k2 : Int) :
    readFile (getBucketPath t (getItem t fs k).1 k2).1 (bucketPathOf t k2)
      = readFile (getBucketPath t fs k2).1 (bucketPathOf t k2) := by
  rw [getItem_fst, getBucketPath_eq, getBucketPath_eq, getBucketPath_eq]
  dsimp only
  have hd : bucketPathOf t k ≠ t.table_dir := bucketPath_ne_dir t k
  by_cases hc : fs (bucketPathOf t k) = none ∧ fs t.table_dir = some Node.dir
  · rw [if_pos hc]
    by_cases hp : bucketPathOf t k2 = bucketPathOf t k
    · rw [hp]
      simp [hc, readFile]
    · rw [Function.update_noteq hp, Function.update_noteq hd.symm]
      by_cases hc2 : fs (bucketPathOf t k2) = none ∧ fs t.table_dir = some Node.dir
      · simp [hc2, readFile]
      · simp only [hc2, if_false]
        simp [readFile, Function.update_noteq hp]
  · rw [if_neg hc]

/-- C10 (reads are read-only): for a table as a constructor makes it, on every filesystem,
`getItem(k)` leaves the log file as it is and leaves the outcome of every later
`getItem` unchanged; the filesystem afterwards is the one before, or the one before with
the bucket file of the shard of k, which did not exist, created holding the empty object. -/
theorem c10_read_only (t : PersistentHashTable) (fs : FS) (k : Int) (ht : t.constructed) :
    (getItem t fs k).1 (getLogFile t) = fs (getLogFile t) ∧
    (∀ k2, (getItem t (getItem t fs k).1 k2).2 = (getItem t fs k2).2) ∧
    ((getItem t fs k).1 = fs ∨
      (fs (bucketPathOf t k) = none ∧
        (getItem t fs k).1
          = Function.update fs (bucketPathOf t k) (some (Node.file emptyDocument)) ∧
        parseJson emptyDocument = some [])) := by
  refine ⟨?_, ?_, ?_⟩
  · exact getItem_other t fs k _ (bucketPath_ne_log_file t k ht).symm
  · intro k2
    rw [getItem_snd_eq, getItem_snd_eq, read_after_getItem]
  · rw [getItem_fst, getBucketPath_eq]
    dsimp only
    by_cases hc : fs (bucketPathOf t k) = none ∧ fs t.table_dir = some Node.dir
    · rw [if_pos hc]
      exact Or.inr ⟨hc.1, rfl, parseJson_emptyDocument⟩
    · rw [if_neg hc]
      exact Or.inl rfl

/-- Witness of C10: a failing read of key 261 on the example table does not change the log
and a later read of key 5 fails as it would have. -/
theorem c10_read_only_witness :
    (getItem demoTable demoFS 261).1 (getLogFile demoTable) = demoFS (getLogFile demoTable) ∧
    (getItem demoTable (getItem demoTable demoFS 261).1 5).2 = (getItem demoTable demoFS 5).2 :=
  ⟨(c10_read_only demoTable demoFS 261 (Or.inr rfl)).1,
    (c10_read_only demoTable demoFS 261 (Or.inr rfl)).2.1 5⟩

theorem readSigned_isSome_digits (s : Text) (v : Int) (r : Text)
    (h : extractInt s = some (v, r)) : isInt32 v := by
  unfold extractInt at h
  split at h
  · simp at h
  · split at h
    · rename_i hv
      simp only [Option.some.injEq, Prod.mk.injEq] at h
      rw [← h.1]
      exact hv
    · simp at h

theorem parseLine_isInt32 (l : Text) (k v : Int) (h : parseLine l = some (k, v)) :
    isInt32 k ∧ isInt32 v := by
  unfold parseLine at h
  split at h
  · simp at h
  · rename_i key r1 h1
    split at h
    · simp at h
    · rename_i delim r2 h2
      split at h
      · simp at h
      · rename_i value r3 h3
        split at h
        · simp only [Option.some.injEq, Prod.mk.injEq] at h
          rw [← h.1, ← h.2]
          exact ⟨readSigned_isSome_digits _ _ _ h1, readSigned_isSome_digits _ _ _ h3⟩
        · simp at h

theorem recordsOf_isInt32 (lines : List Text) :
    ∀ r ∈ recordsOf lines, isInt32 r.1 ∧ isInt32 r.2 := by
  induction lines with
  | nil => intro r hr; simp [recordsOf] at hr
  | cons l ls ih =>
    intro r hr
    unfold recordsOf at hr
    split at hr
    · simp at hr
    · rename_i r0 h0
      rcases List.mem_cons.mp hr with e | e
      · subst e
        exact parseLine_isInt32 l r.1 r.2 h0
      · exact ih r e

theorem outcome_lastWrite (hist : List (Int × Int)) (k : Int)
    (hh : ∀ r ∈ hist, isInt32 r.1 ∧ isInt32 r.2) :
    outcomeOf ((lastWrite hist k).map toInt32) = outcomeOf (lastWrite hist k) := by
  cases h : lastWrite hist k with
  | none => rfl
  | some w => simp [toInt32_of_isInt32 w (lastWrite_isInt32 hist k w hh h)]

/-- What a table holds when the recovery constructor has returned. -/
theorem recover_stored (fs fs1 : FS) (lp dir : Path) (m : Nat) (t : PersistentHashTable)
    (hw : fs.wellFormed) (hc : recover fs lp dir m = (fs1, Except.ok t)) :
    ∃ fs3, recoverStart fs dir = some fs3 ∧ TableOK t fs1 ∧
      ∀ k, stored t fs1 k = lastWrite (recordsOf (linesOf fs3 lp)) k := by
  obtain ⟨fs3, hs, _, ht, _, hfs⟩ := recover_ok fs fs1 lp dir m t hw hc
  obtain ⟨hok, _, habs, _⟩ := recoverStart_fresh fs fs3 dir m hw hs
  rw [← ht] at hok
  refine ⟨fs3, hs, by rw [hfs]; exact TableOK_applySets t _ fs3 hok, ?_⟩
  intro k
  rw [hfs, stored_applySets t _ k fs3 hok]
  have h3 : stored t fs3 k = none := by
    apply stored_none_of_absent
    rw [ht]
    exact habs _ (bucketName_ne_logName _ _)
  rw [h3]
  cases lastWrite (recordsOf (linesOf fs3 lp)) k <;> rfl

theorem linesOf_congr (fs fs2 : FS) (p : Path) (h : readFile fs2 p = readFile fs p) :
    linesOf fs2 p = linesOf fs p := by
  simp [linesOf, h]

theorem wellFormed_demoFS : demoFS.wellFormed :=
  wellFormed_construct emptyFS wellFormed_emptyFS ["t"] true 2

theorem tmod_bounds (k : Int) (n : Nat) (hn : 0 < n) :
    -(n : Int) < Int.tmod k n ∧ Int.tmod k n < n := by
  cases k with
  | ofNat j =>
    have h : Int.tmod (Int.ofNat j) (n : Int) = ((j % n : Nat) : Int) := rfl
    rw [h]
    have := Nat.mod_lt j hn
    omega
  | negSucc j =>
    have h : Int.tmod (Int.negSucc j) (n : Int) = -(((j + 1) % n : Nat) : Int) := rfl
    rw [h]
    have := Nat.mod_lt (j + 1) hn
    omega

theorem tmod_small (r : Int) (n : Nat) (h1 : -(n : Int) < r) (h2 : r < n) :
    Int.tmod r n = r := by
  cases r with
  | ofNat j =>
    have h : Int.tmod (Int.ofNat j) (n : Int) = ((j % n : Nat) : Int) := rfl
    rw [h]
    have hj : j < n := by
      have : (Int.ofNat j) = (j : Int) := rfl
      omega
    rw [Nat.mod_eq_of_lt hj]
    rfl
  | negSucc j =>
    have h : Int.tmod (Int.negSucc j) (n : Int) = -(((j + 1) % n : Nat) : Int) := rfl
    rw [h]
    have hj : j + 1 < n := by
      have : Int.negSucc j = -((j : Int) + 1) := Int.negSucc_eq j
      omega
    rw [Nat.mod_eq_of_lt hj, Int.negSucc_eq]
    push_cast
    rfl

/-- The remainders of all 32-bit keys are all the numbers strictly between `-n` and `n`. -/
theorem image_tmod (n : Nat) (hn : 0 < n) (hn31 : n ≤ 2147483648) :
    (Finset.Icc INT_MIN INT_MAX).image (fun k => Int.tmod k n)
      = Finset.Ioo (-(n : Int)) n := by
  ext r
  simp only [Finset.mem_image, Finset.mem_Icc, Finset.mem_Ioo]
  constructor
  · rintro ⟨k, _, rfl⟩
    exact tmod_bounds k n hn
  · rintro ⟨h1, h2⟩
    refine ⟨r, ?_, tmod_small r n h1 h2⟩
    unfold INT_MIN INT_MAX
    omega

theorem hexOfInt_injOn (a b : Int) (ha : isInt32 a) (hb : isInt32 b)
    (h : hexOfInt a = hexOfInt b) : a = b := by
  unfold hexOfInt at h
  have h2 := toDigits_injective 16 (by decide) (by decide) _ _ h
  unfold isInt32 INT_MIN INT_MAX at ha hb
  omega

/-- The number of shard ids for a modulus n. -/
theorem card_hex_image (n : Nat) (hn : 0 < n) (hn31 : n ≤ 2147483648) :
    ((Finset.Icc INT_MIN INT_MAX).image (fun k => hexOfInt (Int.tmod k n))).card
      = 2 * n - 1 := by
  have h1 : (Finset.Icc INT_MIN INT_MAX).image (fun k => hexOfInt (Int.tmod k n))
      = ((Finset.Icc INT_MIN INT_MAX).image (fun k => Int.tmod k n)).image hexOfInt := by
    rw [Finset.image_image]
    rfl
  rw [h1, image_tmod n hn hn31, Finset.card_image_of_injOn, Int.card_Ioo]
  · omega
  · intro a ha b hb hab
    simp only [Finset.coe_Ioo, Set.mem_Ioo] at ha hb
    apply hexOfInt_injOn a b _ _ hab
    · unfold isInt32 INT_MIN INT_MAX; omega
    · unfold isInt32 INT_MIN INT_MAX; omega

theorem shardIds_card (m : Nat) (hm : validMag m) : (shardIds m).card = 2 * 16 ^ m - 1 := by
  have hpow : (2 : Int) ^ (m * 4) = ((16 ^ m : Nat) : Int) := by
    rw [Nat.mul_comm, pow_mul]
    norm_num
  have h16 : 0 < 16 ^ m ∧ 16 ^ m ≤ 2147483648 := by
    obtain ⟨h1, h7⟩ := hm
    interval_cases m <;> norm_num
  unfold shardIds hash
  rw [hpow]
  exact card_hex_image (16 ^ m) h16.1 h16.2

/-- The remainders of the non-negative keys are the numbers from 0 up to `n - 1`. -/
theorem image_tmod_nonneg (n : Nat) (hn : 0 < n) (hn31 : n ≤ 2147483648) :
    (Finset.Icc 0 INT_MAX).image (fun k => Int.tmod k n) = Finset.Ico (0 : Int) n := by
  ext r
  simp only [Finset.mem_image, Finset.mem_Icc, Finset.mem_Ico]
  constructor
  · rintro ⟨k, ⟨hk, _⟩, rfl⟩
    exact ⟨Int.tmod_nonneg _ hk, (tmod_bounds k n hn).2⟩
  · rintro ⟨h1, h2⟩
    refine ⟨r, ?_, tmod_small r n (by omega) h2⟩
    unfold INT_MAX
    omega

theorem card_hex_image_nonneg (n : Nat) (hn : 0 < n) (hn31 : n ≤ 2147483648) :
    ((Finset.Icc 0 INT_MAX).image (fun k => hexOfInt (Int.tmod k n))).card = n := by
  have h1 : (Finset.Icc 0 INT_MAX).image (fun k => hexOfInt (Int.tmod k n))
      = ((Finset.Icc 0 INT_MAX).image (fun k => Int.tmod k n)).image hexOfInt := by
    rw [Finset.image_image]
    rfl
  rw [h1, image_tmod_nonneg n hn hn31, Finset.card_image_of_injOn, Int.card_Ico]
  · omega
  · intro a ha b hb hab
    simp only [Finset.coe_Ico, Set.mem_Ico] at ha hb
    apply hexOfInt_injOn a b _ _ hab
    · unfold isInt32 INT_MIN INT_MAX; omega
    · unfold isInt32 INT_MIN INT_MAX; omega

theorem pow16_bounds (m : Nat) (hm : validMag m) :
    (2 : Int) ^ (m * 4) = ((16 ^ m : Nat) : Int) ∧ 0 < 16 ^ m ∧ 16 ^ m ≤ 2147483648 := by
  refine ⟨?_, ?_⟩
  · rw [Nat.mul_comm, pow_mul]
    norm_num
  · obtain ⟨h1, h7⟩ := hm
    interval_cases m <;> norm_num

/-- C8 (amended): for a magnitude m from 1 to 7 the shard ids of all 32-bit keys are exactly
`2 * 16^m - 1` strings, of which `16^m` are the ids of the non-negative keys; every bucket
file of a table is named by one of these ids. -/
theorem c8_shard_namespace (m : Nat) (hm : validMag m) :
    (shardIds m).card = 2 * 16 ^ m - 1 ∧
    ((Finset.Icc 0 INT_MAX).image (hash m)).card = 16 ^ m ∧
    ∀ (t : PersistentHashTable) (k : Int), t.bucket_mag = m → isInt32 k →
      ∃ s ∈ shardIds m, bucketPathOf t k = t.table_dir ++ [String.mk (s ++ ".json".toList)] := by
  refine ⟨shardIds_card m hm, ?_, ?_⟩
  · obtain ⟨hpow, h1, h2⟩ := pow16_bounds m hm
    unfold hash
    rw [hpow]
    exact card_hex_image_nonneg (16 ^ m) h1 h2
  · intro t k ht hk
    refine ⟨hash m k, ?_, by rw [bucketPathOf, ht]⟩
    exact Finset.mem_image.mpr ⟨k, Finset.mem_Icc.mpr hk, rfl⟩

/-- Witness of C8 at magnitude 2: 511 shard ids, 256 of them for non-negative keys. -/
theorem c8_shard_namespace_witness :
    (shardIds 2).card = 511 ∧ ((Finset.Icc 0 INT_MAX).image (hash 2)).card = 256 :=
  ⟨(c8_shard_namespace 2 (by decide)).1, (c8_shard_namespace 2 (by decide)).2.1⟩

/-- Counterexample to C8 as stated: at magnitude 1 there are 31 shard ids, not 16; the key
-1 has the shard id `ffffffff`. -/
theorem c8_counterexample :
    (shardIds 1).card ≠ 16 ^ 1 ∧ hash 1 (-1) = "ffffffff".toList := by
  refine ⟨?_, by decide⟩
  rw [shardIds_card 1 (by decide)]
  decide

theorem Creatable_recoverStart (fs : FS) (dir : Path) (h : Creatable fs dir) :
    ∃ fs3, recoverStart fs dir = some fs3 := by
  unfold recoverStart
  rw [create_directories_some]
  · exact ⟨_, rfl⟩
  · intro q hq
    by_cases hqd : q = dir
    · subst hqd
      by_cases he : pathExists fs q = true
      · simp [he, remove_all, Node.isFile]
      · have hnone : fs q = none := by simpa [pathExists] using he
        simp [he, hnone, Node.isFile]
    · have hnot : ¬ dir <+: q := fun h2 =>
        hqd (List.IsPrefix.eq_of_length hq (Nat.le_antisymm hq.length_le h2.length_le))
      rw [wiped_outside fs dir q hnot]
      exact h q hq hqd

theorem allParse_false_of_mem (lines : List Text) (l : Text) (hl : l ∈ lines)
    (hp : parseLine l = none) : allParse lines = false := by
  unfold allParse
  rw [Bool.eq_false_iff]
  intro h
  have := List.all_eq_true.mp h l hl
  simp [hp] at this

/-- C5 (amended): when the log file at `log_path`, outside `new_directory`, has a line on
which the extraction `key >> delim >> value` fails or whose delimiter is not a comma, and
`new_directory` can be created, the recovery constructor fails with invalid-log-format. The
lines `abc,5` and the empty line are such lines. -/
theorem c5_unparsable_line_rejected (fs : FS) (log_path dir : Path) (m : Nat) (c l : Text)
    (hw : fs.wellFormed) (ho : ¬ dir <+: log_path) (hcr : Creatable fs dir)
    (hr : readFile fs log_path = some c) (hl : l ∈ getlines c) (hp : parseLine l = none) :
    (recover fs log_path dir m).2 = Except.error Error.InvalidLogFormat ∧
    parseLine "abc,5".toList = none ∧ parseLine [] = none := by
  refine ⟨?_, by decide, by decide⟩
  obtain ⟨fs3, hs⟩ := Creatable_recoverStart fs dir hcr
  have he : pathExists fs log_path = true := by
    unfold readFile at hr
    split at hr
    · rename_i c0 h0
      simp [pathExists, h0]
    · simp at hr
  have hlines : linesOf fs3 log_path = getlines c := by
    rw [linesOf_congr fs fs3 log_path (recoverStart_outside fs fs3 dir log_path hs ho).1]
    simp [linesOf, hr]
  rw [recover_eq fs log_path dir m he]
  simp only [hs]
  rw [replay_eq _ _ _ (recoverStart_fresh fs fs3 dir m hw hs).1, hlines,
    allParse_false_of_mem _ l hl hp]
  rfl

theorem wellFormed_sourceFS (c : Text) : (sourceFS c).wellFormed :=
  wellFormed_writeFile emptyFS wellFormed_emptyFS _ _

theorem Creatable_single (fs : FS) (x : String) (h : Node.isFile (fs []) = false) :
    Creatable fs [x] := by
  intro q hq hne
  have hlen := hq.length_le
  have hq0 : q = [] := by
    cases q with
    | nil => rfl
    | cons a as =>
      cases as with
      | nil =>
        obtain ⟨s, hs⟩ := hq
        simp at hs
        exact absurd (by rw [hs.1]) hne
      | cons b bs => simp at hlen
  rw [hq0]
  exact h

/-- Witness of C5: a log whose second line is `abc,5`. -/
theorem c5_unparsable_line_rejected_witness :
    (recover (sourceFS "5,100\nabc,5\n".toList) ["src.txt"] ["u"] 3).2
      = Except.error Error.InvalidLogFormat :=
  (c5_unparsable_line_rejected (sourceFS "5,100\nabc,5\n".toList) ["src.txt"] ["u"] 3
    "5,100\nabc,5\n".toList "abc,5".toList (wellFormed_sourceFS _) (by decide)
    (Creatable_single _ "u" (by decide!)) (by decide!) (by decide!) (by decide!)).1

/-- Counterexample to C5 as stated: the lines `5,100xyz` and `5 , 100` are not exactly of
the form `<int>,<int>`, yet the recovery constructor accepts logs that hold them and replays
the record `(5, 100)`. -/
theorem c5_counterexample :
    exactRecordForm "5,100xyz".toList = false ∧
    (recover (sourceFS "5,100xyz\n".toList) ["src.txt"] ["u"] 3).2 = Except.ok otherTable ∧
    (getItem otherTable (recover (sourceFS "5,100xyz\n".toList) ["src.txt"] ["u"] 3).1 5).2
      = Except.ok 100 ∧
    exactRecordForm "5 , 100".toList = false ∧
    (recover (sourceFS "5 , 100\n".toList) ["src.txt"] ["u"] 3).2 = Except.ok otherTable ∧
    (getItem otherTable (recover (sourceFS "5 , 100\n".toList) ["src.txt"] ["u"] 3).1 5).2
      = Except.ok 100 := by
  refine ⟨by decide!, by decide!, by decide!, by decide!, by decide!, by decide!⟩

theorem exactRecordForm_examples :
    exactRecordForm "5,100".toList = true ∧ exactRecordForm "-5,-100".toList = true ∧
    exactRecordForm "abc,5".toList = false ∧ exactRecordForm [] = false := by decide

theorem recordsOf_recordText (hist : List (Int × Int))
    (hh : ∀ r ∈ hist, isInt32 r.1 ∧ isInt32 r.2) :
    recordsOf (hist.map recordText) = hist ∧ allParse (hist.map recordText) = true := by
  induction hist with
  | nil => exact ⟨rfl, rfl⟩
  | cons r rs ih =>
    obtain ⟨h1, h2⟩ := ih (fun x hx => hh x (List.mem_cons_of_mem _ hx))
    obtain ⟨hk, hv⟩ := hh r (List.mem_cons_self _ _)
    have hp : parseLine (recordText r) = some r := parseLine_record r.1 r.2 hk hv
    constructor
    · simp only [List.map_cons, recordsOf, hp, h1]
    · unfold allParse at h2 ⊢
      simp only [List.map_cons, List.all_cons, hp, Option.isSome_some, Bool.true_and]
      exact h2

/-- A table that finds its directory unchanged is in good order as before and stores what it
stored. -/
theorem TableOK_congr (t : PersistentHashTable) (fs fs2 : FS) (h : TableOK t fs)
    (he : ∀ q, t.table_dir <+: q → fs2 q = fs q) :
    TableOK t fs2 ∧ ∀ k, stored t fs2 k = stored t fs k := by
  obtain ⟨hcon, ⟨hdir, hent⟩, hlog⟩ := h
  refine ⟨⟨hcon, ⟨?_, ?_⟩, ?_⟩, ?_⟩
  · rw [he _ (List.prefix_refl _)]
    exact hdir
  · intro x
    rw [he _ (List.prefix_append _ _)]
    exact hent x
  · intro hl
    have hlf : t.log_file = t.table_dir ++ [logName] := by
      rcases hcon with h1 | h1
      · exact absurd h1 hl
      · exact h1
    rw [he _ (by rw [hlf]; exact List.prefix_append _ _)]
    exact hlog hl
  · intro k
    simp only [stored, readFile]
    rw [he _ (under_dir_of_eq_bucket t k)]

/-- C2 (amended): a table T is constructed with logging on a fresh directory and a history
of 32-bit writes is applied; the recovery constructor is then run on T's log into a
directory that can be created and that neither lies inside T's directory nor contains it
(nor is it), with any magnitudes from 1 to 7. Then the recovery constructor returns a table,
and on it `getItem(k)` gives for every key k what T gives, before and after the recovery:
the value of the last write to k, or key-not-found when k was never written. -/
theorem c2_recovery_fidelity (fs0 fs1 : FS) (dir dir2 : Path) (m m2 : Nat)
    (T : PersistentHashTable) (hist : List (Int × Int)) (k : Int)
    (hw : fs0.wellFormed) (hf : Fresh fs0 dir) (_hm : validMag m) (_hm2 : validMag m2)
    (hc : construct fs0 dir true m = (fs1, Except.ok T))
    (hh : ∀ r ∈ hist, isInt32 r.1 ∧ isInt32 r.2)
    (hd1 : ¬ dir2 <+: dir) (hd2 : ¬ dir <+: dir2)
    (hcr : Creatable (applySets T fs1 hist) dir2) :
    ∃ fs2 T2, recover (applySets T fs1 hist) (getLogFile T) dir2 m2 = (fs2, Except.ok T2) ∧
      (getItem T2 fs2 k).2 = outcomeOf (lastWrite hist k) ∧
      (getItem T fs2 k).2 = outcomeOf (lastWrite hist k) ∧
      (getItem T (applySets T fs1 hist) k).2 = outcomeOf (lastWrite hist k) := by
  have hT1 := TableOK_construct_fresh fs0 fs1 dir true m T hf hc
  have hTN := TableOK_applySets T hist fs1 hT1
  obtain ⟨hlf, hlog0⟩ := log_construct_fresh fs0 fs1 dir m T hf hc
  have hdirT : T.table_dir = dir := (construct_table_dir fs0 fs1 dir true m T hc).1
  have hne : T.log_file ≠ [] := by rw [hlf]; simp
  have hfs1 : fs1 = (construct fs0 dir true m).1 := by rw [hc]
  have hwN : FS.wellFormed (applySets T fs1 hist) := by
    apply wellFormed_applySets
    rw [hfs1]
    exact wellFormed_construct fs0 hw dir true m
  have hlogN : readFile (applySets T fs1 hist) (dir ++ [logName])
      = some (hist.flatMap (fun r => logLine r.1 r.2)) := by
    have := log_applySets T hist hne fs1 [] hT1 (by rw [hlf]; exact hlog0)
    rw [hlf] at this
    simpa using this
  have hstN : ∀ k, stored T (applySets T fs1 hist) k = lastWrite hist k := by
    intro k
    rw [stored_applySets T hist k fs1 hT1, stored_construct_fresh fs0 fs1 dir true m T hf hc k]
    cases lastWrite hist k <;> rfl
  have hout : ¬ dir2 <+: dir ++ [logName] := by
    intro h
    rcases List.prefix_concat_iff.mp h with h1 | h1
    · exact hd2 (by rw [h1]; exact List.prefix_append _ _)
    · exact hd1 h1
  obtain ⟨fs3, hs⟩ := Creatable_recoverStart _ dir2 hcr
  have hex : pathExists (applySets T fs1 hist) (dir ++ [logName]) = true := by
    unfold readFile at hlogN
    split at hlogN
    · rename_i c0 h0
      simp [pathExists, h0]
    · simp at hlogN
  have hfresh := recoverStart_fresh _ fs3 dir2 m2 hwN hs
  have hlines : linesOf fs3 (dir ++ [logName]) = hist.map recordText := by
    rw [linesOf_congr _ fs3 _ (recoverStart_outside _ fs3 dir2 _ hs hout).1]
    simp only [linesOf, hlogN]
    exact getlines_records hist
  obtain ⟨hrec, hall⟩ := recordsOf_recordText hist hh
  have hrecover : recover (applySets T fs1 hist) (getLogFile T) dir2 m2
      = (applySets ⟨dir2, m2, dir2 ++ [logName]⟩ fs3 hist,
          Except.ok ⟨dir2, m2, dir2 ++ [logName]⟩) := by
    rw [getLogFile, hlf, recover_eq _ _ dir2 m2 hex]
    simp only [hs]
    rw [replay_eq _ _ _ hfresh.1, hlines, hrec, hall]
    rfl
  have hT2 := TableOK_applySets ⟨dir2, m2, dir2 ++ [logName]⟩ hist fs3 hfresh.1
  have hagree : ∀ q, T.table_dir <+: q →
      applySets ⟨dir2, m2, dir2 ++ [logName]⟩ fs3 hist q = applySets T fs1 hist q := by
    intro q hq
    rw [hdirT] at hq
    have h1 : ¬ dir2 <+: q := by
      intro h2
      rcases List.prefix_or_prefix_of_prefix hq h2 with h3 | h3
      · exact hd2 h3
      · exact hd1 h3
    have h2 : ¬ q <+: dir2 := fun h3 => hd2 (hq.trans h3)
    rw [applySets_outside ⟨dir2, m2, dir2 ++ [logName]⟩ hist q h1 fs3 hfresh.1]
    exact (recoverStart_outside _ fs3 dir2 q hs h1).2 h2
  obtain ⟨hTafter, hstafter⟩ := TableOK_congr T _ _ hTN hagree
  refine ⟨_, _, hrecover, ?_, ?_, ?_⟩
  · rw [getItem_snd _ _ k hT2, stored_applySets _ hist k fs3 hfresh.1]
    have h3 : stored ⟨dir2, m2, dir2 ++ [logName]⟩ fs3 k = none :=
      stored_none_of_absent _ fs3 k (hfresh.2.2.1 _ (bucketName_ne_logName _ _))
    rw [h3]
    have : (match lastWrite hist k with
        | some w => some w
        | none => none) = lastWrite hist k := by
      cases lastWrite hist k <;> rfl
    rw [this]
    exact outcome_lastWrite hist k hh
  · rw [getItem_snd T _ k hTafter, hstafter k, hstN k]
    exact outcome_lastWrite hist k hh
  · rw [getItem_snd T _ k hTN, hstN k]
    exact outcome_lastWrite hist k hh

theorem demo_creatable : Creatable (applySets demoTable demoFS demoHistory) ["u"] :=
  Creatable_single _ "u" (by decide!)

/-- Witness of C2: the example table recovered into the directory `u` with magnitude 3. -/
theorem c2_recovery_fidelity_witness :
    ∃ fs2 T2, recover (applySets demoTable demoFS demoHistory) (getLogFile demoTable) ["u"] 3
        = (fs2, Except.ok T2) ∧
      (getItem T2 fs2 21).2 = outcomeOf (lastWrite demoHistory 21) ∧
      (getItem demoTable fs2 21).2 = outcomeOf (lastWrite demoHistory 21) ∧
      (getItem demoTable (applySets demoTable demoFS demoHistory) 21).2
        = outcomeOf (lastWrite demoHistory 21) :=
  c2_recovery_fidelity emptyFS demoFS ["t"] ["u"] 2 3 demoTable demoHistory 21
    wellFormed_emptyFS (Fresh_emptyFS "t") (by decide) (by decide) demo_construct
    (by decide) (by decide) (by decide) demo_creatable

/-- Counterexample to C2 as stated: the table in `d/t` holds key 1 with value 2; recovering
its log into the directory `d`, a directory different from `d/t`, wipes the log before it is
read and returns a table on which key 1 is not found, while the wiped table in `d/t` no
longer finds a bucket document. Recovering instead into `d/t/1.json`, the place of the bucket
file of key 1 inside the directory of the table, returns a table that has key 1, while the
table in `d/t` finds a directory where its bucket file was. -/
theorem c2_counterexample :
    (construct emptyFS ["d", "t"] true 3).2 = Except.ok nestedTable ∧
    (setItem nestedTable (construct emptyFS ["d", "t"] true 3).1 1 2).2 = Except.ok () ∧
    (getItem nestedTable nestedFS 1).2 = Except.ok 2 ∧
    (["d"] : Path) ≠ ["d", "t"] ∧
    (recover nestedFS (getLogFile nestedTable) ["d"] 3).2 = Except.ok parentTable ∧
    (getItem parentTable (recover nestedFS (getLogFile nestedTable) ["d"] 3).1 1).2
      = Except.error Error.KeyNotFound ∧
    (getItem nestedTable (recover nestedFS (getLogFile nestedTable) ["d"] 3).1 1).2
      = Except.error Error.CorruptBucket ∧
    (recover nestedFS (getLogFile nestedTable) ["d", "t", "1.json"] 3).2
      = Except.ok insideTable ∧
    (getItem insideTable
      (recover nestedFS (getLogFile nestedTable) ["d", "t", "1.json"] 3).1 1).2
      = Except.ok 2 ∧
    (getItem nestedTable
      (recover nestedFS (getLogFile nestedTable) ["d", "t", "1.json"] 3).1 1).2
      = Except.error Error.CorruptBucket := by
  refine ⟨by decide!, by decide!, by decide!, by decide, by decide!, by decide!, by decide!,
    by decide!, by decide!, by decide!⟩

theorem hexDigitChar_eq : ∀ d, d < 16 → Nat.digitChar d = hexDigitChar d := by decide

/-- The digits core Lean prints in base 16 are the lower-case base-16 rendering. -/
theorem toDigits_eq_base16 (n : Nat) : Nat.toDigits 16 n = base16 n := by
  refine toDigits_induction 16 (by decide) (fun n ds => ds = base16 n) ?_ ?_ n
  · intro n hn
    unfold base16
    by_cases h0 : n = 0
    · subst h0
      rfl
    · rw [if_neg h0, Nat.digits_of_lt 16 n h0 hn]
      simp [hexDigitChar_eq n hn]
  · intro n hn ih
    have hpos : 0 < n := by omega
    have hdiv : n / 16 ≠ 0 := by
      have : 1 ≤ n / 16 := (Nat.le_div_iff_mul_le (by decide)).mpr (by omega)
      omega
    have hmod : n % 16 < 16 := Nat.mod_lt n (by decide)
    rw [ih]
    unfold base16
    rw [if_neg hdiv, if_neg (by omega), Nat.digits_def' (by decide) hpos]
    simp [hexDigitChar_eq _ hmod]

theorem hash_nonneg (m : Nat) (k : Int) (hm : validMag m) (hk : 0 ≤ k) :
    hash m k = base16 ((k % 16 ^ m).toNat) := by
  obtain ⟨hpow, h1, h2⟩ := pow16_bounds m hm
  unfold hash hexOfInt
  rw [toDigits_eq_base16, hpow, Int.tmod_eq_emod hk (by positivity)]
  congr 1
  have hlt : k % ((16 ^ m : Nat) : Int) < ((16 ^ m : Nat) : Int) :=
    Int.emod_lt_of_pos k (by exact_mod_cast h1)
  have hge : 0 ≤ k % ((16 ^ m : Nat) : Int) := Int.emod_nonneg k (by
    have : (0 : Int) < ((16 ^ m : Nat) : Int) := by exact_mod_cast h1
    omega)
  have hcast : ((16 ^ m : Nat) : Int) = (16 : Int) ^ m := by push_cast; rfl
  rw [← hcast]
  have h3 : ((16 ^ m : Nat) : Int) ≤ 2147483648 := by exact_mod_cast h2
  omega

theorem bucketPath_eq_iff (t : PersistentHashTable) (k1 k2 : Int) :
    bucketPathOf t k1 = bucketPathOf t k2 ↔ hash t.bucket_mag k1 = hash t.bucket_mag k2 := by
  constructor
  · intro h
    have h1 := List.append_cancel_left h
    simp only [List.cons.injEq, and_true] at h1
    exact List.append_cancel_right (congrArg String.data h1)
  · intro h
    rw [bucketPathOf, bucketPathOf, h]

theorem hash_eq_iff (m : Nat) (k1 k2 : Int) (hm : validMag m) :
    hash m k1 = hash m k2 ↔ Int.tmod k1 (16 ^ m) = Int.tmod k2 (16 ^ m) := by
  obtain ⟨hpow, h1, h2⟩ := pow16_bounds m hm
  have hcast : ((16 ^ m : Nat) : Int) = (16 : Int) ^ m := by push_cast; rfl
  unfold hash
  rw [hpow, ← hcast]
  constructor
  · intro h
    have b1 := tmod_bounds k1 (16 ^ m) h1
    have b2 := tmod_bounds k2 (16 ^ m) h1
    have h3 : ((16 ^ m : Nat) : Int) ≤ 2147483648 := by exact_mod_cast h2
    apply hexOfInt_injOn _ _ _ _ h
    · unfold isInt32 INT_MIN INT_MAX; omega
    · unfold isInt32 INT_MIN INT_MAX; omega
  · intro h
    rw [h]

/-- C13 (shard id of a non-negative key): for a magnitude m from 1 to 7 and keys that are
not negative, `hash(k)` is the lower-case base-16 rendering of `k mod 16^m`, and two such
keys have the same bucket file exactly when they are congruent modulo `16^m`; with magnitude
2 the keys 5 and 21 have the bucket files `5.json` and `15.json`. -/
theorem c13_shard_of_nonneg (t : PersistentHashTable) (k1 k2 : Int)
    (hm : validMag t.bucket_mag) (h1 : 0 ≤ k1) (h2 : 0 ≤ k2) :
    hash t.bucket_mag k1 = base16 ((k1 % 16 ^ t.bucket_mag).toNat) ∧
    (bucketPathOf t k1 = bucketPathOf t k2 ↔
      k1 % 16 ^ t.bucket_mag = k2 % 16 ^ t.bucket_mag) ∧
    bucketPathOf demoTable 5 = ["t", "5.json"] ∧
    bucketPathOf demoTable 21 = ["t", "15.json"] := by
  refine ⟨hash_nonneg _ k1 hm h1, ?_, by decide, by decide⟩
  rw [bucketPath_eq_iff, hash_eq_iff _ k1 k2 hm, Int.tmod_eq_emod h1 (by positivity),
    Int.tmod_eq_emod h2 (by positivity)]

/-- Witness of C13: with magnitude 2 the keys 5 and 261 are congruent modulo 256 and share
the bucket file, and the shard id of 261 is the rendering of 5. -/
theorem c13_shard_of_nonneg_witness :
    hash 2 261 = base16 5 ∧ bucketPathOf demoTable 261 = bucketPathOf demoTable 5 := by
  obtain ⟨h1, h2, _, _⟩ := c13_shard_of_nonneg demoTable 261 5 (by decide) (by decide)
    (by decide)
  exact ⟨h1, h2.mpr (by decide)⟩

/-- Every path above an existing entry is a directory. -/
theorem wellFormed_above (fs : FS) (hw : fs.wellFormed) (p : Path) :
    ∀ s : Path, s ≠ [] → fs (p ++ s) ≠ none → fs p = some Node.dir := by
  intro s
  induction s using List.reverseRecOn with
  | nil => intro h; exact absurd rfl h
  | append_singleton l a ih =>
    intro _ hne
    have hd := hw (p ++ l) a (by rwa [List.append_assoc])
    by_cases hl : l = []
    · subst hl
      simpa using hd
    · exact ih hl (by rw [hd]; simp)

theorem wellFormed_creatable (fs : FS) (hw : fs.wellFormed) (p : Path) (hp : fs p ≠ none)
    (q : Path) (hq : q <+: p) (hne : q ≠ p) : fs q = some Node.dir := by
  obtain ⟨s, rfl⟩ := hq
  exact wellFormed_above fs hw q s (fun e => hne (by simp [e])) hp

/-- On an existing directory of a well-formed filesystem `create_directories` changes
nothing. -/
theorem create_directories_existing (fs : FS) (hw : fs.wellFormed) (dir : Path)
    (hd : fs dir = some Node.dir) : create_directories fs dir = some fs := by
  have hall : ∀ q, q <+: dir → fs q = some Node.dir := by
    intro q hq
    by_cases hne : q = dir
    · rw [hne]; exact hd
    · exact wellFormed_creatable fs hw dir (by rw [hd]; simp) q hq hne
  rw [create_directories_some fs dir (fun q hq => by rw [hall q hq]; rfl)]
  congr 1
  funext q
  by_cases hq : q <+: dir
  · simp [hq, hall q hq]
  · simp [hq]

theorem getItem_congr_table (t t0 : PersistentHashTable) (fs : FS) (k : Int)
    (hd : t.table_dir = t0.table_dir) (hm : t.bucket_mag = t0.bucket_mag) :
    getItem t fs k = getItem t0 fs k := by
  have hp : bucketPathOf t k = bucketPathOf t0 k := by
    rw [bucketPathOf, bucketPathOf, hd, hm]
  unfold getItem getBucketPath
  rw [hp]

/-- C11 (resume in place): on a directory that exists and, when logging is asked for,
already holds a log, the ordinary constructor returns a table and leaves the whole
filesystem as it was, the log and the bucket files included; a table with the directory and
the magnitude of the table that wrote them gets from `getItem` what that table got. -/
theorem c11_resume_in_place (fs : FS) (dir : Path) (logging : Bool) (m : Nat)
    (t0 : PersistentHashTable) (k : Int) (hw : fs.wellFormed) (hd : fs dir = some Node.dir)
    (hl : logging = true → pathExists fs (dir ++ [logName]) = true)
    (h0 : t0.table_dir = dir) (hm : t0.bucket_mag = m) :
    ∃ t, construct fs dir logging m = (fs, Except.ok t) ∧
      t.table_dir = dir ∧ t.bucket_mag = m ∧ getItem t fs k = getItem t0 fs k := by
  cases logging with
  | true =>
    refine ⟨⟨dir, m, dir ++ [logName]⟩, ?_, rfl, rfl, ?_⟩
    · simp [construct, create_directories_existing fs hw dir hd, ensureLog, hl rfl]
    · exact getItem_congr_table _ t0 fs k h0.symm hm.symm
  | false =>
    refine ⟨⟨dir, m, []⟩, ?_, rfl, rfl, ?_⟩
    · simp [construct, create_directories_existing fs hw dir hd]
    · exact getItem_congr_table _ t0 fs k h0.symm hm.symm

theorem wellFormed_demoAfter : demoAfter.wellFormed :=
  wellFormed_applySets demoTable demoHistory demoFS wellFormed_demoFS

/-- Witness of C11: the example table is constructed again on its directory after its
history. -/
theorem c11_resume_in_place_witness :
    ∃ t, construct demoAfter ["t"] true 2 = (demoAfter, Except.ok t) ∧
      t.table_dir = ["t"] ∧ t.bucket_mag = 2 ∧ getItem t demoAfter 5 = getItem demoTable demoAfter 5 :=
  c11_resume_in_place demoAfter ["t"] true 2 demoTable 5 wellFormed_demoAfter (by decide!)
    (fun _ => by decide!) rfl rfl

/-- C14 (constructor postcondition): when no component of the path is a regular file, the
ordinary constructor with logging on returns a table; afterwards the path is a directory,
`log.txt` exists inside it (as a regular file, unless a directory of that name was there
before), and `getLogFile` returns the path of that `log.txt`. -/
theorem c14_constructor_postcondition (fs : FS) (dir : Path) (m : Nat)
    (hcr : ∀ q, q <+: dir → Node.isFile (fs q) = false) :
    ∃ fs1 t, construct fs dir true m = (fs1, Except.ok t) ∧
      fs1 dir = some Node.dir ∧
      pathExists fs1 (dir ++ ["log.txt"]) = true ∧
      (fs (dir ++ ["log.txt"]) ≠ some Node.dir →
        ∃ c, fs1 (dir ++ ["log.txt"]) = some (Node.file c)) ∧
      getLogFile t = dir ++ ["log.txt"] := by
  obtain ⟨fs0, hc⟩ : ∃ fs0, create_directories fs dir = some fs0 :=
    ⟨_, create_directories_some fs dir hcr⟩
  obtain ⟨hd, he⟩ := create_directories_dir fs fs0 dir hc
  have hl := ensureLog_log fs0 dir hd
  rw [he logName] at hl
  have hother : ensureLog fs0 (dir ++ [logName]) dir = some Node.dir := by
    rw [ensureLog_other _ _ _ (log_ne_dir dir).symm]
    exact hd
  refine ⟨ensureLog fs0 (dir ++ [logName]), ⟨dir, m, dir ++ [logName]⟩,
    by simp [construct, hc], hother, ?_, ?_, rfl⟩
  · show pathExists _ (dir ++ [logName]) = true
    unfold pathExists
    rw [hl]
    by_cases hn : fs (dir ++ [logName]) = none
    · simp [hn]
    · simp only [hn, if_false]
      exact Option.isSome_iff_ne_none.mpr hn
  · intro hnd
    show ∃ c, ensureLog fs0 (dir ++ [logName]) (dir ++ [logName]) = some (Node.file c)
    rw [hl]
    by_cases hn : fs (dir ++ [logName]) = none
    · exact ⟨[], by simp [hn]⟩
    · simp only [hn, if_false]
      cases hfs : fs (dir ++ [logName]) with
      | none => exact absurd hfs hn
      | some n =>
        cases n with
        | dir => exact absurd hfs hnd
        | file c => exact ⟨c, rfl⟩

/-- Witness of C14: the directory `a/b` did not exist before. -/
theorem c14_constructor_postcondition_witness :
    ∃ fs1 t, construct emptyFS ["a", "b"] true 3 = (fs1, Except.ok t) ∧
      fs1 ["a", "b"] = some Node.dir ∧
      pathExists fs1 (["a", "b"] ++ ["log.txt"]) = true ∧
      (emptyFS (["a", "b"] ++ ["log.txt"]) ≠ some Node.dir →
        ∃ c, fs1 (["a", "b"] ++ ["log.txt"]) = some (Node.file c)) ∧
      getLogFile t = ["a", "b"] ++ ["log.txt"] :=
  c14_constructor_postcondition emptyFS ["a", "b"] 3 (by
    intro q _
    simp only [emptyFS]
    split <;> rfl)

theorem Creatable_of_existing (fs : FS) (hw : fs.wellFormed) (dir : Path) (x : String)
    (h : fs (dir ++ [x]) ≠ none) : Creatable fs dir := by
  intro q hq _
  have hne : q ≠ dir ++ [x] := by
    intro e
    have := hq.length_le
    rw [e] at this
    simp at this
  rw [wellFormed_creatable fs hw (dir ++ [x]) h q (hq.trans (List.prefix_append _ _)) hne]
  rfl

/-- C20 (in-place recovery loses the data): when `log_path` is the existing `log.txt` inside
`new_directory`, the recovery constructor returns a table without error; afterwards the log
is empty and `getItem(k)` fails with key-not-found for every key. -/
theorem c20_in_place_recovery (fs : FS) (dir : Path) (m : Nat) (k : Int)
    (hw : fs.wellFormed) (hl : pathExists fs (dir ++ [logName]) = true) :
    ∃ fs1 t, recover fs (dir ++ [logName]) dir m = (fs1, Except.ok t) ∧
      getLogFile t = dir ++ [logName] ∧
      readFile fs1 (getLogFile t) = some [] ∧
      (getItem t fs1 k).2 = Except.error Error.KeyNotFound := by
  have hne : fs (dir ++ [logName]) ≠ none := by
    simpa [pathExists, Option.isSome_iff_ne_none] using hl
  obtain ⟨fs3, hs⟩ := Creatable_recoverStart fs dir (Creatable_of_existing fs hw dir logName hne)
  obtain ⟨hok, hlog, habs, _⟩ := recoverStart_fresh fs fs3 dir m hw hs
  refine ⟨fs3, ⟨dir, m, dir ++ [logName]⟩, ?_, rfl, hlog, ?_⟩
  · rw [recover_eq fs _ dir m hl]
    simp only [hs]
    simp [linesOf, hlog, getlines, replay]
  · rw [getItem_snd _ fs3 k hok,
      stored_none_of_absent ⟨dir, m, dir ++ [logName]⟩ fs3 k
        (habs _ (bucketName_ne_logName m k))]
    rfl

/-- Witness of C20: the example table, which holds the keys 5 and 21, is recovered from its
own log into its own directory. -/
theorem c20_in_place_recovery_witness :
    (getItem demoTable demoAfter 5).2 = Except.ok 100 ∧
    ∃ fs1 t, recover demoAfter (["t"] ++ [logName]) ["t"] 2 = (fs1, Except.ok t) ∧
      getLogFile t = ["t"] ++ [logName] ∧
      readFile fs1 (getLogFile t) = some [] ∧
      (getItem t fs1 5).2 = Except.error Error.KeyNotFound :=
  ⟨by decide!, c20_in_place_recovery demoAfter ["t"] 2 5 wellFormed_demoAfter (by decide!)⟩

theorem recordsOf_split (good rest : List Text) (bad : Text)
    (hg : ∀ l ∈ good, parseLine l ≠ none) (hb : parseLine bad = none) :
    recordsOf (good ++ bad :: rest) = good.filterMap parseLine ∧
      allParse (good ++ bad :: rest) = false := by
  refine ⟨?_, allParse_false_of_mem _ bad (by simp) hb⟩
  induction good with
  | nil => simp [recordsOf, hb]
  | cons l ls ih =>
    have hl := hg l (List.mem_cons_self _ _)
    cases hp : parseLine l with
    | none => exact absurd hp hl
    | some r =>
      have ih2 := ih (fun x hx => hg x (List.mem_cons_of_mem _ hx))
      simp only [List.cons_append, recordsOf, hp, List.filterMap_cons]
      exact congrArg (List.cons r) ih2

/-- The state the recovery constructor leaves, whether or not every line parsed: the fresh
table with the records up to the first line that does not parse written to it. -/
theorem recover_state (fs fs3 : FS) (lp dir : Path) (m : Nat) (hw : fs.wellFormed)
    (ho : ¬ dir <+: lp) (hs : recoverStart fs dir = some fs3) (he : pathExists fs lp = true) :
    ∃ fs1, recover fs lp dir m
        = (fs1, if allParse (linesOf fs lp) then Except.ok ⟨dir, m, dir ++ [logName]⟩
                else Except.error Error.InvalidLogFormat) ∧
      TableOK ⟨dir, m, dir ++ [logName]⟩ fs1 ∧
      (∀ k, stored ⟨dir, m, dir ++ [logName]⟩ fs1 k = lastWrite (recordsOf (linesOf fs lp)) k) ∧
      readFile fs1 (dir ++ [logName])
        = some ((recordsOf (linesOf fs lp)).flatMap (fun r => logLine r.1 r.2)) := by
  obtain ⟨hok, hlog, habs, _⟩ := recoverStart_fresh fs fs3 dir m hw hs
  have hl := linesOf_congr fs fs3 lp (recoverStart_outside fs fs3 dir lp hs ho).1
  refine ⟨applySets ⟨dir, m, dir ++ [logName]⟩ fs3 (recordsOf (linesOf fs lp)), ?_,
    TableOK_applySets _ _ fs3 hok, ?_, ?_⟩
  · rw [recover_eq fs lp dir m he]
    simp only [hs]
    rw [replay_eq _ _ _ hok, hl]
  · intro k
    rw [stored_applySets _ _ k fs3 hok,
      stored_none_of_absent ⟨dir, m, dir ++ [logName]⟩ fs3 k
        (habs _ (bucketName_ne_logName m k))]
    cases lastWrite (recordsOf (linesOf fs lp)) k <;> rfl
  · have := log_applySets ⟨dir, m, dir ++ [logName]⟩ (recordsOf (linesOf fs lp))
      (by simp) fs3 [] hok hlog
    simpa using this

theorem pathExists_of_readFile (fs : FS) (p : Path) (c : Text) (h : readFile fs p = some c) :
    pathExists fs p = true := by
  unfold readFile at h
  split at h
  · rename_i c0 h0
    simp [pathExists, h0]
  · simp at h

theorem filterMap_isInt32 (lines : List Text) :
    ∀ r ∈ lines.filterMap parseLine, isInt32 r.1 ∧ isInt32 r.2 := by
  intro r hr
  obtain ⟨l, _, hl⟩ := List.mem_filterMap.mp hr
  exact parseLine_isInt32 l r.1 r.2 hl

/-- C16 (amended): the source log lies outside `new_directory`, which can be created; its
lines before line i parse and line i does not. Then the recovery constructor fails with
invalid-log-format and leaves in `new_directory` the state of replaying the records of the
lines before line i: `getItem` on a table of that directory gives each key its last value
among those records (key-not-found for the other keys), and the new `log.txt` holds exactly
those records. -/
theorem c16_failed_recovery_state (fs : FS) (log_path dir : Path) (m : Nat) (c : Text)
    (good rest : List Text) (bad : Text) (k : Int)
    (hw : fs.wellFormed) (ho : ¬ dir <+: log_path) (hcr : Creatable fs dir)
    (hr : readFile fs log_path = some c) (hlines : getlines c = good ++ bad :: rest)
    (hg : ∀ l ∈ good, parseLine l ≠ none) (hb : parseLine bad = none) :
    ∃ fs1, recover fs log_path dir m = (fs1, Except.error Error.InvalidLogFormat) ∧
      (getItem ⟨dir, m, dir ++ [logName]⟩ fs1 k).2
        = outcomeOf (lastWrite (good.filterMap parseLine) k) ∧
      readFile fs1 (dir ++ [logName])
        = some ((good.filterMap parseLine).flatMap
            (fun r => to_string r.1 ++ ',' :: (to_string r.2 ++ [Char.ofNat 10]))) := by
  obtain ⟨fs3, hs⟩ := Creatable_recoverStart fs dir hcr
  obtain ⟨fs1, h1, hok, hst, hlog⟩ := recover_state fs fs3 log_path dir m hw ho hs
    (pathExists_of_readFile fs log_path c hr)
  have hl : linesOf fs log_path = good ++ bad :: rest := by simp [linesOf, hr, hlines]
  obtain ⟨hrec, hall⟩ := recordsOf_split good rest bad hg hb
  rw [hl, hrec] at hst hlog
  rw [hl, hall] at h1
  refine ⟨fs1, h1, ?_, ?_⟩
  · rw [getItem_snd _ fs1 k hok, hst k]
    exact outcome_lastWrite _ k (filterMap_isInt32 good)
  · simpa [logLine] using hlog

theorem wellFormed_badLogFS : badLogFS.wellFormed :=
  wellFormed_appendFile demoAfter wellFormed_demoAfter _ _

/-- Witness of C16: the log of the example table with the line `abc,5` as its third line is
recovered into the directory `u`. -/
theorem c16_failed_recovery_state_witness :
    ∃ fs1, recover badLogFS ["t", "log.txt"] ["u"] 3
        = (fs1, Except.error Error.InvalidLogFormat) ∧
      (getItem ⟨["u"], 3, ["u"] ++ [logName]⟩ fs1 21).2
        = outcomeOf (lastWrite (["5,100".toList, "21,200".toList].filterMap parseLine) 21) ∧
      readFile fs1 (["u"] ++ [logName])
        = some ((["5,100".toList, "21,200".toList].filterMap parseLine).flatMap
            (fun r => to_string r.1 ++ ',' :: (to_string r.2 ++ [Char.ofNat 10]))) :=
  c16_failed_recovery_state badLogFS ["t", "log.txt"] ["u"] 3 "5,100\n21,200\nabc,5\n".toList
    ["5,100".toList, "21,200".toList] [] "abc,5".toList 21 wellFormed_badLogFS (by decide)
    (Creatable_single _ "u" (by decide!)) (by decide!) (by decide!) (by decide!) (by decide!)

/-- Counterexample to C16 as stated: the log of the table in `t` has the malformed third
line `abc,5`; recovering it into `t` itself wipes the log before it is read, and the recovery
constructor returns a table without any error. -/
theorem c16_counterexample :
    readFile badLogFS ["t", "log.txt"] = some "5,100\n21,200\nabc,5\n".toList ∧
    parseLine "abc,5".toList = none ∧
    (recover badLogFS ["t", "log.txt"] ["t"] 2).2 = Except.ok demoTable := by
  refine ⟨by decide!, by decide!, by decide!⟩

theorem wellFormed_replay (t : PersistentHashTable) (lines : List Text) :
    ∀ fs : FS, fs.wellFormed → FS.wellFormed (replay t fs lines).1 := by
  induction lines with
  | nil => intro fs h; exact h
  | cons l ls ih =>
    intro fs h
    unfold replay
    cases hp : parseLine l with
    | none => exact h
    | some r =>
      obtain ⟨k, v⟩ := r
      have hs := wellFormed_setItem t fs h k v
      dsimp only
      cases hset : setItem t fs k v with
      | mk f res =>
        rw [hset] at hs
        cases res with
        | ok u => exact ih f hs
        | error e => exact hs

theorem wellFormed_recover (fs : FS) (hw : fs.wellFormed) (lp dir : Path) (m : Nat) :
    FS.wellFormed (recover fs lp dir m).1 := by
  have hwipe : FS.wellFormed (if pathExists fs dir then remove_all fs dir else fs) := by
    split
    · exact wellFormed_remove_all fs hw dir
    · exact hw
  unfold recover
  split
  · exact hw
  · dsimp only
    cases hc : create_directories (if pathExists fs dir then remove_all fs dir else fs) dir with
    | none => exact hwipe
    | some fs2 =>
      exact wellFormed_replay _ _ _
        (wellFormed_ensureLog fs2 (wellFormed_create_directories _ fs2 hwipe dir hc) _)

/-- What `getItem` gives on a table the recovery constructor has returned. -/
theorem recover_getItem (fs fs1 : FS) (lp dir : Path) (m : Nat) (t : PersistentHashTable)
    (k : Int) (hw : fs.wellFormed) (ho : ¬ dir <+: lp)
    (hc : recover fs lp dir m = (fs1, Except.ok t)) :
    (getItem t fs1 k).2 = outcomeOf (lastWrite (recordsOf (linesOf fs lp)) k) := by
  obtain ⟨fs3, hs, hok, hst⟩ := recover_stored fs fs1 lp dir m t hw hc
  rw [getItem_snd t fs1 k hok, hst k,
    linesOf_congr fs fs3 lp (recoverStart_outside fs fs3 dir lp hs ho).1]
  exact outcome_lastWrite _ k (recordsOf_isInt32 _)

theorem recordsOf_getlines_records (recs : List (Int × Int))
    (h : ∀ r ∈ recs, isInt32 r.1 ∧ isInt32 r.2) :
    recordsOf (getlines (recs.flatMap (fun r => logLine r.1 r.2))) = recs := by
  rw [getlines_records]
  exact (recordsOf_recordText recs h).1

/-- C19 (recovery reproduces the log): when the recovery constructor has returned a table
from a source log outside `new_directory`, the new `log.txt` holds the records of the source
log in their order, one line each; it is byte for byte the source log when that was written
by `setItem` calls; and a table recovered from the new log gives for every key what the
first recovered table gives. -/
theorem c19_recovery_reproduces_log (fs fs1 : FS) (log_path dir : Path) (m : Nat)
    (t : PersistentHashTable) (hw : fs.wellFormed) (ho : ¬ dir <+: log_path)
    (hc : recover fs log_path dir m = (fs1, Except.ok t)) :
    readFile fs1 (getLogFile t)
      = some ((recordsOf (linesOf fs log_path)).flatMap
          (fun r => to_string r.1 ++ ',' :: (to_string r.2 ++ [Char.ofNat 10]))) ∧
    recordsOf (linesOf fs1 (getLogFile t)) = recordsOf (linesOf fs log_path) ∧
    (∀ hist : List (Int × Int), (∀ r ∈ hist, isInt32 r.1 ∧ isInt32 r.2) →
      readFile fs log_path = some (hist.flatMap (fun r => logLine r.1 r.2)) →
      readFile fs1 (getLogFile t) = readFile fs log_path) ∧
    (∀ (dir3 : Path) (m3 : Nat) (fs2 : FS) (t2 : PersistentHashTable) (k : Int),
      ¬ dir3 <+: getLogFile t → recover fs1 (getLogFile t) dir3 m3 = (fs2, Except.ok t2) →
      (getItem t2 fs2 k).2 = (getItem t fs1 k).2) := by
  obtain ⟨fs3, hs, he, ht, _, _⟩ := recover_ok fs fs1 log_path dir m t hw hc
  obtain ⟨fs1b, h1, _, _, hlog⟩ := recover_state fs fs3 log_path dir m hw ho hs he
  have hfs : fs1b = fs1 := by
    have := congrArg Prod.fst (h1.symm.trans hc)
    exact this
  rw [hfs] at hlog
  have hlf : getLogFile t = dir ++ [logName] := by rw [ht]; rfl
  rw [hlf]
  have hrecs : recordsOf (linesOf fs1 (dir ++ [logName])) = recordsOf (linesOf fs log_path) := by
    simp only [linesOf, hlog]
    exact recordsOf_getlines_records _ (recordsOf_isInt32 _)
  refine ⟨by simpa [logLine] using hlog, hrecs, ?_, ?_⟩
  · intro hist hh hsrc
    rw [hlog, hsrc]
    have : recordsOf (linesOf fs log_path) = hist := by
      simp only [linesOf, hsrc]
      exact recordsOf_getlines_records hist hh
    rw [this]
  · intro dir3 m3 fs2 t2 k ho3 hc3
    have hw1 : fs1.wellFormed := by
      have := wellFormed_recover fs hw log_path dir m
      rwa [hc] at this
    rw [recover_getItem fs1 fs2 _ dir3 m3 t2 k hw1 ho3 hc3, hrecs,
      recover_getItem fs fs1 log_path dir m t k hw ho hc]

/-- Witness of C19: the log of the example table is recovered into the directory `u`; the new
log is the source log, byte for byte. -/
theorem c19_recovery_reproduces_log_witness :
    readFile (recover demoAfter ["t", "log.txt"] ["u"] 3).1 ["u", "log.txt"]
      = readFile demoAfter ["t", "log.txt"] :=
  (c19_recovery_reproduces_log demoAfter (recover demoAfter ["t", "log.txt"] ["u"] 3).1
    ["t", "log.txt"] ["u"] 3 otherTable wellFormed_demoAfter (by decide)
    (Prod.ext rfl (by decide!))).2.2.1 demoHistory (by decide) (by decide!)

theorem getBucketPath_other (t : PersistentHashTable) (fs : FS) (k : Int) (q : Path)
    (hq : q ≠ bucketPathOf t k) : (getBucketPath t fs k).1 q = fs q := by
  rw [← getItem_fst]
  exact getItem_other t fs k q hq

theorem read_getBucketPath_congr (t : PersistentHashTable) (fs fs2 : FS) (k : Int)
    (h1 : fs2 (bucketPathOf t k) = fs (bucketPathOf t k))
    (h2 : fs2 t.table_dir = fs t.table_dir) :
    readFile (getBucketPath t fs2 k).1 (bucketPathOf t k)
      = readFile (getBucketPath t fs k).1 (bucketPathOf t k) := by
  rw [getBucketPath_eq, getBucketPath_eq]
  dsimp only
  rw [h1, h2]
  by_cases hc : fs (bucketPathOf t k) = none ∧ fs t.table_dir = some Node.dir
  · simp [hc, readFile]
  · simp only [hc, if_false]
    simp [readFile, h1]

theorem getItem_snd_congr (t : PersistentHashTable) (fs fs2 : FS) (k : Int)
    (h : readFile (getBucketPath t fs2 k).1 (bucketPathOf t k)
      = readFile (getBucketPath t fs k).1 (bucketPathOf t k)) :
    (getItem t fs2 k).2 = (getItem t fs k).2 := by
  rw [getItem_snd_eq, getItem_snd_eq, h]

theorem log_other_constructed (t : PersistentHashTable) (fs : FS) (k v : Int) (q : Path)
    (ht : t.constructed) (hq : q ≠ t.table_dir ++ [logName]) : log t fs k v q = fs q := by
  rcases ht with h | h
  · rw [log_off t fs k v h]
  · exact log_other t fs k v q (by rw [h]; exact hq)

theorem getBucketPath_congr_path (t : PersistentHashTable) (fs : FS) (k k2 : Int)
    (h : bucketPathOf t k2 = bucketPathOf t k) : getBucketPath t fs k2 = getBucketPath t fs k := by
  rw [getBucketPath_eq, getBucketPath_eq, h]

/-- C15 (write isolation): for a table as a constructor makes it, on every filesystem, and
for keys k2 other than k, `getItem(k2)` has the same outcome after `setItem(k, v)` as
before it, whether the two keys share a bucket file or not and whether or not the write
succeeded. -/
theorem c15_write_isolation (t : PersistentHashTable) (fs : FS) (k v k2 : Int)
    (ht : t.constructed) (hne : k2 ≠ k) :
    (getItem t (setItem t fs k v).1 k2).2 = (getItem t fs k2).2 := by
  cases hread : (readFile (getBucketPath t fs k).1 (bucketPathOf t k)).bind parseJson with
  | none =>
    have hfs : (setItem t fs k v).1 = (getItem t fs k).1 := by
      rw [getItem_fst]
      simp [setItem, getBucketPath_snd, hread]
    rw [hfs, getItem_snd_eq, getItem_snd_eq, read_after_getItem]
  | some j =>
    obtain ⟨c, hc, hj⟩ := Option.bind_eq_some.mp hread
    have hfile : (getBucketPath t fs k).1 (bucketPathOf t k) = some (Node.file c) := by
      unfold readFile at hc
      split at hc
      · rename_i c0 h0
        simp only [Option.some.injEq] at hc
        rw [h0, hc]
      · simp at hc
    have hfs : (setItem t fs k v).1
        = log t (Function.update (getBucketPath t fs k).1 (bucketPathOf t k)
            (some (Node.file (dump (Json.assign j (to_string k) v))))) k v := by
      simp only [setItem, getBucketPath_snd, hread]
      rw [writeFile_file _ _ c _ hfile]
    have hclean : Json.clean (Json.assign j (to_string k) v) :=
      clean_assign j _ v (parseJson_sound c j hj) (to_string_cleanKey k)
    by_cases hp : bucketPathOf t k2 = bucketPathOf t k
    · have hat : (setItem t fs k v).1 (bucketPathOf t k2)
          = some (Node.file (dump (Json.assign j (to_string k) v))) := by
        rw [hfs, log_other_constructed t _ k v _ ht (bucketPath_ne_log t k2), hp,
          Function.update_same]
      have hget : readFile (getBucketPath t (setItem t fs k v).1 k2).1 (bucketPathOf t k2)
          = some (dump (Json.assign j (to_string k) v)) := by
        rw [getBucketPath_eq]
        simp [hat, readFile]
      have hlook : List.lookup (to_string k2) (Json.assign j (to_string k) v)
          = List.lookup (to_string k2) j :=
        lookup_assign_other j _ _ v (fun e => hne (to_string_injective _ _ e))
      rw [getItem_snd_eq, getItem_snd_eq, hget, getBucketPath_congr_path t fs k k2 hp, hp,
        hread]
      simp only [Option.bind, parseJson_dump _ hclean, Json.contains, Json.at, hlook]
    · apply getItem_snd_congr
      apply read_getBucketPath_congr
      · rw [hfs, log_other_constructed t _ k v _ ht (bucketPath_ne_log t k2),
          Function.update_noteq hp, getBucketPath_other t fs k _ hp]
      · rw [hfs, log_other_constructed t _ k v _ ht (log_ne_dir _).symm,
          Function.update_noteq (bucketPath_ne_dir t k).symm,
          getBucketPath_other t fs k _ (bucketPath_ne_dir t k).symm]

/-- Witness of C15: on the example table after its history, writing key 261 leaves key 5 of
the same shard with its value. -/
theorem c15_write_isolation_witness :
    (getItem demoTable (setItem demoTable demoAfter 261 9).1 5).2 = Except.ok 100 := by
  rw [c15_write_isolation demoTable demoAfter 261 9 5 (Or.inr rfl) (by decide)]
  decide!

theorem decimalKeys_assign (j : Json) (k : Int) (v : Int) (hj : decimalKeys j) :
    decimalKeys (Json.assign j (to_string k) v) := by
  induction j with
  | nil =>
    intro e he
    simp [Json.assign] at he
    exact ⟨k, by rw [he]⟩
  | cons e rest ih =>
    obtain ⟨hk2, hv⟩ := e
    have hrest : decimalKeys rest := fun e he => hj e (List.mem_cons_of_mem _ he)
    have hhead : ∃ k0 : Int, hk2 = to_string k0 := hj (hk2, hv) (List.mem_cons_self _ _)
    intro e he
    by_cases h1 : to_string k = hk2
    · rw [Json.assign, if_pos h1] at he
      rcases List.mem_cons.mp he with he | he
      · exact ⟨k, by rw [he]⟩
      · exact hrest e he
    · by_cases h2 : strLt (to_string k) hk2 = true
      · rw [Json.assign, if_neg h1, if_pos h2] at he
        rcases List.mem_cons.mp he with he | he
        · exact ⟨k, by rw [he]⟩
        · rcases List.mem_cons.mp he with he | he
          · rw [he]; exact hhead
          · exact hrest e he
      · rw [Json.assign, if_neg h1, if_neg h2] at he
        rcases List.mem_cons.mp he with he | he
        · rw [he]; exact hhead
        · exact ih hrest e he

theorem decimalKeys_docOf (t : PersistentHashTable) (fs : FS) (k : Int)
    (h : BucketsValid fs t.table_dir) : decimalKeys (docOf fs (bucketPathOf t k)) := by
  unfold docOf
  cases hr : (readFile fs (bucketPathOf t k)).bind parseJson with
  | none => intro e he; simp at he
  | some j =>
    obtain ⟨c, hc, hj⟩ := Option.bind_eq_some.mp hr
    have hfile : fs (bucketPathOf t k) = some (Node.file c) := by
      unfold readFile at hc
      split at hc
      · rename_i c0 h0
        simp only [Option.some.injEq] at hc
        rw [h0, hc]
      · simp at hc
    obtain ⟨j2, hj2, hd⟩ := h _ c (bucketName_ne_logName t.bucket_mag k) hfile
    rw [hj] at hj2
    simp only [Option.some.injEq] at hj2
    simpa [hj2] using hd

theorem BucketsValid_update_bucket (t : PersistentHashTable) (fs : FS) (k : Int) (x : Text)
    (j : Json) (hx : parseJson x = some j) (hj : decimalKeys j)
    (h : BucketsValid fs t.table_dir) :
    BucketsValid (Function.update fs (bucketPathOf t k) (some (Node.file x))) t.table_dir := by
  intro y c hy hc
  by_cases hp : t.table_dir ++ [y] = bucketPathOf t k
  · rw [hp, Function.update_same] at hc
    simp only [Option.some.injEq, Node.file.injEq] at hc
    rw [← hc]
    exact ⟨j, hx, hj⟩
  · rw [Function.update_noteq hp] at hc
    exact h y c hy hc

theorem BucketsValid_congr (fs fs2 : FS) (dir : Path) (h : BucketsValid fs dir)
    (he : ∀ x : String, x ≠ logName → fs2 (dir ++ [x]) = fs (dir ++ [x])) :
    BucketsValid fs2 dir := by
  intro y c hy hc
  rw [he y hy] at hc
  exact h y c hy hc

theorem entry_ne_log (dir : Path) (x : String) (hx : x ≠ logName) :
    dir ++ [x] ≠ dir ++ [logName] := by
  intro e
  exact hx (by simpa using List.append_cancel_left e)

theorem BucketsValid_setItem (t : PersistentHashTable) (fs : FS) (k v : Int)
    (hok : TableOK t fs) (h : BucketsValid fs t.table_dir) :
    BucketsValid (setItem t fs k v).1 t.table_dir := by
  rw [setItem_eq t fs k v hok]
  have hclean := clean_assign (docOf fs (bucketPathOf t k)) (to_string k) v (docOf_clean _ _)
    (to_string_cleanKey k)
  apply BucketsValid_congr _ _ _ (BucketsValid_update_bucket t fs k _ _
    (parseJson_dump _ hclean) (decimalKeys_assign _ k v (decimalKeys_docOf t fs k h)) h)
  intro x hx
  exact log_other_constructed t _ k v _ hok.1 (entry_ne_log _ x hx)

theorem BucketsValid_getItem (t : PersistentHashTable) (fs : FS) (k : Int)
    (h : BucketsValid fs t.table_dir) : BucketsValid (getItem t fs k).1 t.table_dir := by
  rw [getItem_fst, getBucketPath_eq]
  dsimp only
  split
  · exact BucketsValid_update_bucket t fs k _ [] parseJson_emptyDocument
      (fun e he => by simp at he) h
  · exact h

theorem BucketsValid_applySets (t : PersistentHashTable) (hist : List (Int × Int)) :
    ∀ fs, TableOK t fs → BucketsValid fs t.table_dir →
      BucketsValid (applySets t fs hist) t.table_dir := by
  induction hist with
  | nil => intro fs _ h; exact h
  | cons r rs ih =>
    intro fs hok h
    exact ih _ (TableOK_setItem t fs r.1 r.2 hok) (BucketsValid_setItem t fs r.1 r.2 hok h)

theorem BucketsValid_construct (fs fs1 : FS) (dir : Path) (logging : Bool) (m : Nat)
    (t : PersistentHashTable) (h : construct fs dir logging m = (fs1, Except.ok t))
    (hv : BucketsValid fs dir) : BucketsValid fs1 dir := by
  obtain ⟨fs0, hc, h1 | h1⟩ := construct_eq fs fs1 dir logging m t h
  · obtain ⟨_, rfl, _⟩ := h1
    apply BucketsValid_congr _ _ _ hv
    intro x hx
    rw [ensureLog_other _ _ _ (entry_ne_log dir x hx)]
    exact (create_directories_dir fs fs0 dir hc).2 x
  · obtain ⟨_, rfl, _⟩ := h1
    exact BucketsValid_congr _ _ _ hv (fun x _ => (create_directories_dir fs fs1 dir hc).2 x)

/-- Every reachable state has valid bucket files. -/
theorem Reachable_BucketsValid (t : PersistentHashTable) (fs : FS) (h : Reachable t fs) :
    BucketsValid fs t.table_dir := by
  induction h with
  | construct fs dir logging m t fs1 hf _ hc =>
    rw [(construct_table_dir fs fs1 dir logging m t hc).1]
    apply BucketsValid_construct fs fs1 dir logging m t hc
    intro x c _ hx
    rw [Fresh_entries fs dir hf x] at hx
    simp at hx
  | recover fs lp dir m t fs1 hw _ hc =>
    obtain ⟨fs3, hs, _, ht, _, hfs⟩ := recover_ok fs fs1 lp dir m t hw hc
    obtain ⟨hok, _, habs, _⟩ := recoverStart_fresh fs fs3 dir m hw hs
    rw [← ht] at hok
    rw [hfs]
    apply BucketsValid_applySets t _ fs3 hok
    intro x c hx hc2
    rw [ht] at hc2
    rw [habs x hx] at hc2
    simp at hc2
  | reopen t0 fs logging m t fs1 _ _ hc ih =>
    rw [(construct_table_dir fs fs1 t0.table_dir logging m t hc).1]
    exact BucketsValid_construct fs fs1 t0.table_dir logging m t hc ih
  | getItem t fs key _ _ ih => exact BucketsValid_getItem t fs key ih
  | setItem t fs key value hr _ _ ih =>
    exact BucketsValid_setItem t fs key value (Reachable_TableOK t fs hr) ih

/-- C18 (bucket validity): in every state reached from a fresh directory through
constructor, `getItem` and `setItem` calls, every regular file in the table directory other
than the log parses as an object whose keys are decimal integers and whose values are
integers, and nothing but regular files lies in the directory; so `getItem` returns a value
or fails with key-not-found, and `setItem` returns. -/
theorem c18_bucket_validity (t : PersistentHashTable) (fs : FS) (k v : Int)
    (hr : Reachable t fs) :
    (∀ (x : String) (c : Text), x ≠ logName → fs (t.table_dir ++ [x]) = some (Node.file c) →
      ∃ j : List (Text × Int), parseJson c = some j ∧
        ∀ e ∈ j, ∃ n : Int, e.1 = to_string n) ∧
    (∀ x : String, fs (t.table_dir ++ [x]) ≠ some Node.dir) ∧
    (getItem t fs k).2 ≠ Except.error Error.CorruptBucket ∧
    (setItem t fs k v).2 = Except.ok () := by
  have hok := Reachable_TableOK t fs hr
  refine ⟨Reachable_BucketsValid t fs hr, ?_, ?_, setItem_ok t fs k v hok⟩
  · intro x hx
    rcases hok.2.1.2 x with hn | ⟨c, hc, _⟩
    · rw [hn] at hx; simp at hx
    · rw [hc] at hx; simp at hx
  · rw [getItem_snd t fs k hok]
    cases (stored t fs k).map toInt32 <;> simp [outcomeOf]

/-- Witness of C18: the example table after a failed read of key 261. -/
theorem c18_bucket_validity_witness :
    (getItem demoTable (getItem demoTable demoFS 261).1 5).2
      ≠ Except.error Error.CorruptBucket ∧
    (setItem demoTable (getItem demoTable demoFS 261).1 5 100).2 = Except.ok () :=
  (c18_bucket_validity demoTable (getItem demoTable demoFS 261).1 5 100
    (Reachable.getItem demoTable demoFS 261 demo_reachable (by decide))).2.2

/-- A thread that runs alone makes, step by step, what the sequential `setItem` makes. -/
theorem solo_setItem (t : PersistentHashTable) (fs : FS) (k v : Int) :
    ∃ n pc, run t ⟨fs, [], [⟨k, v, Pc.setCheck⟩]⟩ (List.replicate n 0)
        = some ⟨(setItem t fs k v).1, [], [⟨k, v, pc⟩]⟩ ∧
      pc = (match (setItem t fs k v).2 with
            | Except.ok _ => Pc.getCheck
            | Except.error e => Pc.done (Except.error e)) := by
  by_cases hE : pathExists fs (bucketPathOf t k) = true
  · cases hR : (readFile fs (bucketPathOf t k)).bind parseJson with
    | none =>
      refine ⟨3, Pc.done (Except.error Error.CorruptBucket), ?_, ?_⟩
      · simp [List.replicate, run, step, World.goto, World.locked, hE, hR, setItem,
          getBucketPath]
      · simp [setItem, getBucketPath, hE, hR]
    | some b =>
      refine ⟨6, Pc.getCheck, ?_, ?_⟩
      · simp [List.replicate, run, step, World.goto, World.locked, hE, hR, setItem,
          getBucketPath]
      · simp [setItem, getBucketPath, hE, hR]
  · cases hR : (readFile (writeFile fs (bucketPathOf t k) emptyDocument)
        (bucketPathOf t k)).bind parseJson with
    | none =>
      refine ⟨4, Pc.done (Except.error Error.CorruptBucket), ?_, ?_⟩
      · simp [List.replicate, run, step, World.goto, World.locked, hE, hR, setItem,
          getBucketPath]
      · simp [setItem, getBucketPath, hE, hR]
    | some b =>
      refine ⟨7, Pc.getCheck, ?_, ?_⟩
      · simp [List.replicate, run, step, World.goto, World.locked, hE, hR, setItem,
          getBucketPath]
      · simp [setItem, getBucketPath, hE, hR]

/-- A thread that runs alone makes, step by step, what the sequential `getItem` makes. -/
theorem solo_getItem (t : PersistentHashTable) (fs : FS) (k v : Int) :
    ∃ n, run t ⟨fs, [], [⟨k, v, Pc.getCheck⟩]⟩ (List.replicate n 0)
        = some ⟨(getItem t fs k).1, [], [⟨k, v, Pc.done (getItem t fs k).2⟩]⟩ := by
  by_cases hE : pathExists fs (bucketPathOf t k) = true
  · cases hR : (readFile fs (bucketPathOf t k)).bind parseJson with
    | none =>
      refine ⟨3, ?_⟩
      simp [List.replicate, run, step, World.goto, World.locked, hE, hR, getItem,
        getBucketPath]
    | some b =>
      refine ⟨4, ?_⟩
      by_cases hC : Json.contains b (to_string k) = true
      · simp [List.replicate, run, step, World.goto, World.locked, hE, hR, getItem,
          getBucketPath, hC]
      · simp [List.replicate, run, step, World.goto, World.locked, hE, hR, getItem,
          getBucketPath, hC]
  · cases hR : (readFile (writeFile fs (bucketPathOf t k) emptyDocument)
        (bucketPathOf t k)).bind parseJson with
    | none =>
      refine ⟨4, ?_⟩
      simp [List.replicate, run, step, World.goto, World.locked, hE, hR, getItem,
        getBucketPath]
    | some b =>
      refine ⟨5, ?_⟩
      by_cases hC : Json.contains b (to_string k) = true
      · simp [List.replicate, run, step, World.goto, World.locked, hE, hR, getItem,
          getBucketPath, hC]
      · simp [List.replicate, run, step, World.goto, World.locked, hE, hR, getItem,
          getBucketPath, hC]

/-- Two threads that run one after the other both read back what they wrote. -/
theorem serial_run :
    (run demoTable raceWorld
        ([0, 0, 0, 0, 0, 0, 0, 0, 0, 0, 0] ++ [1, 1, 1, 1, 1, 1, 1, 1, 1, 1])).map World.pcs
      = some [Pc.done (Except.ok 100), Pc.done (Except.ok 200)] := by
  decide!

/-- C12 (concurrent correctness) fails on the code: on the fresh example table the threads
write and read the keys 5 and 261, which are distinct and share a bucket file. In the
interleaving where thread 1 finds the bucket file missing, thread 0 runs its `setItem`,
thread 1 then creates the file, and both run to their end, the `getItem` of thread 0 fails
with key-not-found instead of returning 100; thread 1 gets its 200. -/
theorem c12_lost_update :
    (5 : Int) ≠ 261 ∧ bucketPathOf demoTable 5 = bucketPathOf demoTable 261 ∧
    (run demoTable raceWorld (raceSchedule ++ [1, 1, 1, 1, 1, 1, 1, 1, 1])).map World.pcs
      = some [Pc.done (Except.error Error.KeyNotFound), Pc.done (Except.ok 200)] := by
  refine ⟨by decide, by decide, by decide!⟩

/-- C17 (lock discipline) fails on the code: after the opening of the interleaving no lock
is held and the bucket file holds key 5; the next step of thread 1 is the creation in
`getBucketPath`, which overwrites the file with the empty object while thread 1 does not
hold the lock of the bucket. -/
theorem c17_unlocked_creation :
    (run demoTable raceWorld raceOpening).map World.pcs
      = some [Pc.getCheck, Pc.setCreate] ∧
    (run demoTable raceWorld raceOpening).map (fun w => w.locks) = some [] ∧
    (run demoTable raceWorld raceOpening).map
        (fun w => w.holds 1 (bucketPathOf demoTable 261)) = some false ∧
    (run demoTable raceWorld raceOpening).map
        (fun w => readFile w.fs (bucketPathOf demoTable 261))
      = some (some "\x7b\"5\":100\x7d".toList) ∧
    (run demoTable raceWorld (raceOpening ++ [1])).map
        (fun w => readFile w.fs (bucketPathOf demoTable 261))
      = some (some emptyDocument) := by
  refine ⟨by decide!, by decide!, by decide!, by decide!, by decide!⟩

end SpillHashTable
